import Mathlib

/-!
Verification development for the Brass board-game simulation (`main.py`).

The Python source is shallowly embedded as follows.

* Python strings are embedded as `List Char` (abbreviated `Str`); the string
  operations the source uses (`split`, `join`, `replace`, `in`) are embedded
  as executable functions on `List Char` (`pySplit`, `pyJoin`, ...), with
  `int(...)` restricted to plain decimal digit strings (`parseDec`).
* Mutable Python objects of class `Player` live in an explicit heap
  (`Heap := List Player`, addresses are list indices).  A `Game_State` stores
  the addresses of its players (`playerRefs`); a `Played_Industry` stores the
  address of its owning player (`playerRef`).  This makes the reference
  semantics of `copy.copy` observable: `Game_State.copy` allocates fresh
  player copies, while `Played_Industry.copy` keeps the old address.
* Every fallible routine of the source follows the pattern
  "mutate, then `return controller.test(msg)` on failure"; mutations already
  performed are kept.  It is embedded as a function returning the updated
  data together with `Option String` (`none` = success, `some msg` = the
  failure value surfaced in test mode / raised in perform mode).
* The industry catalog is loaded from `industry_data.csv`, which is external
  tabular data; it is a parameter (`GameProperties`) here.  The fixed tables
  built in `Game_Properties.__init__` (market price lists, starting money)
  are embedded verbatim.  The unused `income_level_to_income` table, the
  unused catalog columns (`Level`, `Count`, `Type Total`, `Links`), the
  unused `hand`/`discard` card lists and all printing/recording code
  (`Sub_Action_Controller`, `string_print`, `record`) are omitted: they do
  not affect any engine transition.
* The module-level variable `game` (the script's running game) is referenced
  by `_take_action_self`'s develop branch (`game.spend_resources`), so the
  action interpreter takes that external state as an explicit `gext`
  argument and threads it.
-/

namespace Brass

/-- Python strings, embedded as character lists. -/
abbrev Str := List Char

/-- Python `s.split(c)` for a one-character separator: splits on every
occurrence, keeping empty segments (`"".split(c) = [""]`). -/
def pySplit (c : Char) : Str → List Str
  | [] => [[]]
  | x :: xs =>
    match pySplit c xs with
    | [] => [[]]
    | h :: t => if x = c then [] :: h :: t else (x :: h) :: t

/-- Python `c.join(parts)` for a one-character separator. -/
def pyJoin (c : Char) : List Str → Str
  | [] => []
  | s :: rest =>
    match rest with
    | [] => s
    | _ :: _ => s ++ c :: pyJoin c rest

/-- Decimal digit character for a value below ten. -/
def decDigit : Nat → Char
  | 0 => '0'
  | 1 => '1'
  | 2 => '2'
  | 3 => '3'
  | 4 => '4'
  | 5 => '5'
  | 6 => '6'
  | 7 => '7'
  | 8 => '8'
  | _ => '9'

/-- Value of a decimal digit character, `none` for non-digits. -/
def decVal (c : Char) : Option Nat :=
  if c = '0' then some 0
  else if c = '1' then some 1
  else if c = '2' then some 2
  else if c = '3' then some 3
  else if c = '4' then some 4
  else if c = '5' then some 5
  else if c = '6' then some 6
  else if c = '7' then some 7
  else if c = '8' then some 8
  else if c = '9' then some 9
  else none

/-- Decimal digits of `n`, least significant first; empty for `0`. -/
def natToCharsAux : Nat → List Char
  | 0 => []
  | n + 1 => decDigit ((n + 1) % 10) :: natToCharsAux ((n + 1) / 10)
decreasing_by exact Nat.div_lt_self (Nat.succ_pos n) (by omega)

/-- Python `str(n)` for a natural number: canonical decimal digits. -/
def natToChars (n : Nat) : Str :=
  if n = 0 then ['0'] else (natToCharsAux n).reverse

/-- Left fold of decimal digits onto an accumulator; `none` on a non-digit. -/
def parseDecAux (acc : Nat) : List Char → Option Nat
  | [] => some acc
  | c :: cs =>
    match decVal c with
    | none => none
    | some d => parseDecAux (acc * 10 + d) cs

/-- Python `int(s)`, modelled for plain (unsigned, unpadded or padded)
decimal digit strings; `none` stands for the `ValueError` it raises
otherwise. -/
def parseDec (s : Str) : Option Nat :=
  if s = [] then none else parseDecAux 0 s

/- Tokens of the source, as character lists. -/

/-- Token "build". -/
def sBuild : Str := ['b', 'u', 'i', 'l', 'd']

/-- Token "network". -/
def sNetwork : Str := ['n', 'e', 't', 'w', 'o', 'r', 'k']

/-- Token "develop". -/
def sDevelop : Str := ['d', 'e', 'v', 'e', 'l', 'o', 'p']

/-- Token "sell". -/
def sSell : Str := ['s', 'e', 'l', 'l']

/-- Token "loan". -/
def sLoan : Str := ['l', 'o', 'a', 'n']

/-- Token "scout". -/
def sScout : Str := ['s', 'c', 'o', 'u', 't']

/-- Token "pass". -/
def sPass : Str := ['p', 'a', 's', 's']

/-- Token "Coal". -/
def sCoal : Str := ['C', 'o', 'a', 'l']

/-- Token "Iron". -/
def sIron : Str := ['I', 'r', 'o', 'n']

/-- Token "Beer". -/
def sBeer : Str := ['B', 'e', 'e', 'r']

/-- Token "Crate". -/
def sCrate : Str := ['C', 'r', 'a', 't', 'e']

/-- Token "Shed". -/
def sShed : Str := ['S', 'h', 'e', 'd']

/-- Token "Pottery". -/
def sPottery : Str := ['P', 'o', 't', 't', 'e', 'r', 'y']

/-- Token "canal". -/
def sCanal : Str := ['c', 'a', 'n', 'a', 'l']

/-- Token "rail". -/
def sRail : Str := ['r', 'a', 'i', 'l']

/-- Token "Manufactured". -/
def sManufactured : Str := ['M', 'a', 'n', 'u', 'f', 'a', 'c', 't', 'u', 'r', 'e', 'd']

/-- Token "Unknown". -/
def sUnknown : Str := ['U', 'n', 'k', 'n', 'o', 'w', 'n']

/-- Token "card". -/
def sCard : Str := ['c', 'a', 'r', 'd']

/-- Token "@Unknown0". -/
def sAtUnknown0 : Str := ['@', 'U', 'n', 'k', 'n', 'o', 'w', 'n', '0']

/-- Token "$Unknown0". -/
def sDollarUnknown0 : Str := ['$', 'U', 'n', 'k', 'n', 'o', 'w', 'n', '0']

/-!  ### Action grammar (`Action_Argument` subclasses, `Action`,
`parse_action_argment_string`, `parse_action_string`). -/

/-- Typed action argument; one constructor per `Action_Argument` subclass of
the source.  The `argument_string` attribute computed by each subclass
initializer is the derived function `ActionArg.argumentString`. -/
inductive ActionArg where
  | build (tile location : Str) (resources : List Str)
  | network (from_location to_location : Str) (resources : List Str)
  | develop (tile : Str) (resources : List Str)
  | sell (tile location : Str) (resources : List Str)
  | scout (card : Str)
deriving DecidableEq

/-- Attribute access `argument.tile` (build/develop/sell arguments). -/
def ActionArg.getTile : ActionArg → Str
  | .build t _ _ => t
  | .develop t _ => t
  | .sell t _ _ => t
  | _ => []

/-- Attribute access `argument.location` (build/sell arguments). -/
def ActionArg.getLocation : ActionArg → Str
  | .build _ l _ => l
  | .sell _ l _ => l
  | _ => []

/-- Attribute access `argument.resources`. -/
def ActionArg.getResources : ActionArg → List Str
  | .build _ _ rs => rs
  | .network _ _ rs => rs
  | .develop _ rs => rs
  | .sell _ _ rs => rs
  | .scout _ => []

/-- Output of `make_resource_string`: `"<r1,r2,...>"`, or empty for an empty
resource list. -/
def makeResourceString (rs : List Str) : Str :=
  match rs with
  | [] => []
  | _ :: _ => '<' :: pyJoin ',' rs ++ ['>']

/-- Per-argument encoded text, as computed by each `Action_Argument`
subclass initializer. -/
def ActionArg.argumentString : ActionArg → Str
  | .build t l rs => t ++ '.' :: l ++ makeResourceString rs
  | .network f t rs => f ++ '.' :: t ++ makeResourceString rs
  | .develop t rs => t ++ makeResourceString rs
  | .sell t l rs => t ++ '.' :: l ++ makeResourceString rs
  | .scout c => c

/-- Structured command (`Action`).  The stored `action_string` of the source
is always recomputed from the components by `Action.__init__`, so it is the
derived function `Action.encode` here rather than a field. -/
structure Action where
  card_play : Nat
  player_id : Nat
  used_card : Str
  main_action : Str
  arguments : List ActionArg
deriving DecidableEq

/-- Command text encoding, as built by `Action.__init__`:
`<cardPlay>.<playerId>.<mainAction>.<card>:<arg1>;<arg2>;...`. -/
def Action.encode (a : Action) : Str :=
  natToChars a.card_play ++ '.' :: natToChars a.player_id ++ '.' ::
    a.main_action ++ '.' :: a.used_card ++ ':' ::
    pyJoin ';' (a.arguments.map ActionArg.argumentString)

/-- Decoding of one argument (`parse_action_argment_string`); `none` stands
for the `ValueError` the source raises on malformed input or on arguments
given to loan/pass/unknown kinds. -/
def parseActionArgumentString (s : Str) (main : Str) : Option ActionArg :=
  let parts :=
    if '<' ∈ s then
      match pySplit '<' (s.filter (fun c => c ≠ '>')) with
      | [l, r] => some (l, pySplit ',' r)
      | _ => none
    else
      some (s, ([] : List Str))
  match parts with
  | none => none
  | some (left, resources) =>
    if main = sBuild then
      match pySplit '.' left with
      | [tile, location] => some (.build tile location resources)
      | _ => none
    else if main = sNetwork then
      match pySplit '.' left with
      | [f, t] => some (.network f t resources)
      | _ => none
    else if main = sDevelop then
      some (.develop left resources)
    else if main = sSell then
      match pySplit '.' left with
      | [tile, location] => some (.sell tile location resources)
      | _ => none
    else if main = sScout then
      some (.scout left)
    else
      none

/-- Decoding of the argument list: empty segments are skipped, any failing
segment fails the whole parse. -/
def parseArgs (main : Str) : List Str → Option (List ActionArg)
  | [] => some []
  | s :: rest =>
    if s = [] then parseArgs main rest
    else
      match parseActionArgumentString s main with
      | none => none
      | some a =>
        match parseArgs main rest with
        | none => none
        | some l => some (a :: l)

/-- Command text decoding (`parse_action_string`); `none` stands for the
uncaught `ValueError` on malformed input. -/
def parseActionString (s : Str) : Option Action :=
  match pySplit ':' s with
  | [left, right] =>
    match pySplit '.' left with
    | [cp, pid, main, card] =>
      match parseDec cp, parseDec pid with
      | some cpn, some pidn =>
        match parseArgs main (pySplit ';' right) with
        | none => none
        | some args =>
          some { card_play := cpn, player_id := pidn, used_card := card,
                 main_action := main, arguments := args }
      | _, _ => none
    | _ => none
  | _ => none

/-!  ### Data model (`Industry_Properties`, `Game_Properties`, `Player`,
`Played_Industry`, `Game_State`). -/

/-- Immutable tile definition (`Industry_Properties`), one row of the
external `industry_data.csv`.  The columns the engine never reads
(`Level`, `Count`, `Type Total`, `Links`) are omitted. -/
structure IndustryProperties where
  name : Str
  industry : Str
  industry_type : Str
  sequence : Nat
  money_cost : Int
  coal_cost : Nat
  iron_cost : Nat
  age_restriction : Str
  beer_cost : Nat
  development_restriction : Bool
  coal_production : Nat
  iron_production : Nat
  beer_production_canal : Nat
  beer_production_rail : Nat
  points : Int
  income_levels : Int
deriving DecidableEq, Inhabited

/-- Derived `cost_list` attribute: `sorted(["Coal"]*coal_cost +
["Iron"]*iron_cost)`; since "Coal" sorts before "Iron" the sorted result is
the coal block followed by the iron block. -/
def IndustryProperties.cost_list (t : IndustryProperties) : List Str :=
  List.replicate t.coal_cost sCoal ++ List.replicate t.iron_cost sIron

/-- Catalog tables built once at startup (`Game_Properties`): the tile
dictionary keyed by name and the per-family ordered layout lists, both
loaded from the external csv and therefore parameters of the model. -/
structure GameProperties where
  industry_dict : Str → Option IndustryProperties
  industry_layout : Str → List IndustryProperties

/-- Market price table `coal_market_cost`. -/
def coal_market_cost : List Int := [1, 1, 2, 2, 3, 3, 4, 4, 5, 5, 6, 6, 7, 7, 8]

/-- Market price table `iron_market_cost`. -/
def iron_market_cost : List Int := [1, 1, 2, 2, 3, 3, 4, 4, 5, 5, 6]

/-- The source's `starting_money` parameter (36, overriding the rules' 17). -/
def starting_money : Int := 36

/-- Iteration order of the `industry_next` dictionary's six fixed keys. -/
def industryKeys : List Str := [sCrate, sShed, sPottery, sBeer, sIron, sCoal]

/-- Mutable per-player ledger (`Player`).  The `industry_next` dictionary
(fixed six family keys) is a total function here; `game_properties`,
`player_color` and the unused `hand`/`discard` lists are omitted. -/
structure Player where
  money : Int
  player_id : Nat
  points : Int
  income_level : Int
  industry_next : Str → Nat

instance : Inhabited Player :=
  ⟨{ money := 0, player_id := 0, points := 0, income_level := 0, industry_next := fun _ => 0 }⟩

/-- Heap of `Player` objects; an address is an index into the list.
`Player.copy` produces a value-identical object at a fresh address. -/
abbrev Heap := List Player

/-- Dereference a player address (addresses used by the source are always
in range; the default is irrelevant there). -/
def getPlayer (h : Heap) (r : Nat) : Player := h.getD r default

/-- Write back a player object at its address. -/
def setPlayer (h : Heap) (r : Nat) (p : Player) : Heap := h.set r p

/-- Per-built-tile state (`Played_Industry`).  `playerRef` is the address of
the owning `Player` object; `Played_Industry.copy` is `copy.copy`, so a
copied tile keeps this address. -/
structure PlayedIndustry where
  playerRef : Nat
  properties : IndustryProperties
  flipped : Bool
  resource_remaining : Nat
deriving Inhabited

/-- Constructor `Played_Industry.__init__`: remaining production is coal +
iron production plus the era's beer production (any age other than "canal"
takes the rail column, as the Python conditional expression does). -/
def mkPlayedIndustry (playerRef : Nat) (t : IndustryProperties) (age : Str) : PlayedIndustry :=
  { playerRef := playerRef, properties := t, flipped := false,
    resource_remaining := t.coal_production + t.iron_production +
      (if age = sCanal then t.beer_production_canal else t.beer_production_rail) }

/-- Aggregate game state (`Game_State`).  Players are stored by heap
address.  The lineage attributes `parent`/`previous_action` only feed
printing and the supervisor's replay and are not part of the transition
data. -/
structure GameState where
  playerRefs : List Nat
  age : Str
  round : Nat
  card_play : Nat
  active_player_index : Nat
  active_player_card : Nat
  coal_market_last_filled : Nat
  iron_market_last_filled : Nat
  played_industries : List PlayedIndustry
  played_links : List Str

/-!  ### Player mutators.  Each returns the updated object and the optional
failure value (`controller.test` result); mutations made before a failure
are kept, as in the source. -/

/-- Message of `delta_money` on negative funds. -/
def errNegativeMoney : String := "Invalid action: player cannot have negative money."

/-- Message of `award_income_levels` on negative income level. -/
def errNegativeIncome : String := "Invalid action: player cannot have negative income level."

/-- Message of out-of-sequence build/develop. -/
def errSequence : String := "Invalid action: player cannot build this tile at this time."

/-- Message of a `KeyError` on an unknown tile name (an uncaught crash in
the source). -/
def errUnknownTile : String := "KeyError: unknown industry tile name."

/-- Message of a development-restricted tile. -/
def errDevelopRestricted : String := "Invalid action: player cannot develop this tile at this time."

/-- Mutator `Player.delta_money`: add `delta`, fail if funds went
negative. -/
def Player.delta_money (p : Player) (delta : Int) : Player × Option String :=
  let p := { p with money := p.money + delta }
  (p, if p.money < 0 then some errNegativeMoney else none)

/-- Mutator `Player.award_points`: add points, then floor at 0.  It never
returns a failure. -/
def Player.award_points (p : Player) (pts : Int) : Player :=
  let p := { p with points := p.points + pts }
  if p.points < 0 then { p with points := 0 } else p

/-- Mutator `Player.award_income_levels`: add levels; fail (leaving the
negative value in place) if the result is negative, clamp at 99 above. -/
def Player.award_income_levels (p : Player) (d : Int) : Player × Option String :=
  let p := { p with income_level := p.income_level + d }
  if p.income_level < 0 then (p, some errNegativeIncome)
  else if 99 < p.income_level then ({ p with income_level := 99 }, none)
  else (p, none)

/-- Mutator `Player.loan`: +30 money then -3 income levels, each failure
propagating. -/
def Player.loan (p : Player) : Player × Option String :=
  match p.delta_money 30 with
  | (p, some e) => (p, some e)
  | (p, none) => p.award_income_levels (-3)

/-- Update of the `industry_next` dictionary at one family key. -/
def Player.bumpNext (p : Player) (fam : Str) : Player :=
  { p with industry_next := fun k =>
      if k = fam then p.industry_next fam + 1 else p.industry_next k }

/-- Mutator `Player.build_tile`: sequence check, advance `industry_next`,
debit the money cost; returns the tile definition on success
(`Sum.inr`) or the failure value (`Sum.inl`). -/
def Player.build_tile (props : GameProperties) (p : Player) (industry_name : Str) :
    Player × (String ⊕ IndustryProperties) :=
  match props.industry_dict industry_name with
  | none => (p, .inl errUnknownTile)
  | some t =>
    if t.sequence ≠ p.industry_next t.industry then (p, .inl errSequence)
    else
      let p := p.bumpNext t.industry
      match p.delta_money (-1 * t.money_cost) with
      | (p, some e) => (p, .inl e)
      | (p, none) => (p, .inr t)

/-- Mutator `Player.develop_tile`: sequence check, advance `industry_next`,
then fail if the removed tile is development-restricted (the index advance
happens before the restriction check, as in the source). -/
def Player.develop_tile (props : GameProperties) (p : Player) (industry_name : Str) :
    Player × Option String :=
  match props.industry_dict industry_name with
  | none => (p, some errUnknownTile)
  | some t =>
    if t.sequence ≠ p.industry_next t.industry then (p, some errSequence)
    else
      let p := p.bumpNext t.industry
      if t.development_restriction then (p, some errDevelopRestricted) else (p, none)

/-- Accessor `get_build_options`: for each of the six families in dictionary
order, the tile at the family's `industry_next` index of the layout, when
that index is still within the layout list. -/
def Player.get_build_options (props : GameProperties) (p : Player) : List IndustryProperties :=
  industryKeys.filterMap fun fam => (props.industry_layout fam).get? (p.industry_next fam)

/-!  ### Played-industry state machine (`spend_resource`, `sell`,
`copy`). -/

/-- Message of spending from a flipped or exhausted tile. -/
def errSpendTile : String := "Invalid action: player cannot spend a resource from this tile at this time."

/-- Message of selling from a non-manufactured or flipped tile. -/
def errSellTile : String := "Invalid action: player cannot sell a resource from this tile at this time."

/-- Transition `Played_Industry.spend_resource`: reject a flipped or empty
tile; otherwise decrement the remainder, and on reaching zero flip the tile
and award its points and income levels to the owning player (through the
stored player address). -/
def PlayedIndustry.spend_resource (ind : PlayedIndustry) (h : Heap) :
    PlayedIndustry × Heap × Option String :=
  if ind.flipped then (ind, h, some errSpendTile)
  else if ind.resource_remaining = 0 then (ind, h, some errSpendTile)
  else
    let ind := { ind with resource_remaining := ind.resource_remaining - 1 }
    if ind.resource_remaining = 0 then
      let ind := { ind with flipped := true }
      let pl := (getPlayer h ind.playerRef).award_points ind.properties.points
      match pl.award_income_levels ind.properties.income_levels with
      | (pl, r) => (ind, setPlayer h ind.playerRef pl, r)
    else (ind, h, none)

/-- Transition `Played_Industry.sell`: only manufactured, unflipped tiles;
flip (leaving `resource_remaining` untouched) and award points and income
levels to the owning player. -/
def PlayedIndustry.sell (ind : PlayedIndustry) (h : Heap) :
    PlayedIndustry × Heap × Option String :=
  if ind.properties.industry_type ≠ sManufactured then (ind, h, some errSellTile)
  else if ind.flipped then (ind, h, some errSellTile)
  else
    let ind := { ind with flipped := true }
    let pl := (getPlayer h ind.playerRef).award_points ind.properties.points
    match pl.award_income_levels ind.properties.income_levels with
    | (pl, r) => (ind, setPlayer h ind.playerRef pl, r)

/-!  ### Resource ledger (`Game_State.spend_resources`). -/

/-- Message of requesting a kind the market cannot supply. -/
def errCannotBuy : String := "Invalid action: player cannot buy this resource at this time."

/-- Message of the final multiset check. -/
def errSpentMismatch : String := "Invalid action: player spent the wrong resources."

/-- Inner for/else scan of `spend_resources`: find the first played tile of
the required family with remaining production and spend one unit from it
(the spend may itself fail; its failure value is returned for propagation).
`none` is the for-else fall-through: no producer found. -/
def boardSpend (inds : List PlayedIndustry) (h : Heap) (kind : Str) :
    Option (List PlayedIndustry × Heap × Option String) :=
  match inds with
  | [] => none
  | ind :: rest =>
    if ind.properties.industry = kind ∧ 0 < ind.resource_remaining then
      match ind.spend_resource h with
      | (ind', h', r) => some (ind' :: rest, h', r)
    else
      match boardSpend rest h kind with
      | none => none
      | some (rest', h', r) => some (ind :: rest', h', r)

/-- Per-unit loop of `spend_resources`: board producers first, else buy from
the coal or iron market (price at the current fill level, then advance the
fill level one step clamped at the top, then debit the player), else fail;
`spent` accumulates the kinds actually consumed. -/
def spendUnits (g : GameState) (h : Heap) (activeRef : Nat) (locs : List Str)
    (spent : List Str) : GameState × Heap × List Str × Option String :=
  match locs with
  | [] => (g, h, spent, none)
  | kind :: rest =>
    match boardSpend g.played_industries h kind with
    | some (inds', h', r) =>
      let g := { g with played_industries := inds' }
      match r with
      | some e => (g, h', spent, some e)
      | none => spendUnits g h' activeRef rest (spent ++ [kind])
    | none =>
      if kind = sCoal then
        let cost := coal_market_cost.getD g.coal_market_last_filled 0
        let newFill := min (g.coal_market_last_filled + 1) (coal_market_cost.length - 1)
        let g := { g with coal_market_last_filled := newFill }
        let spent := spent ++ [kind]
        match (getPlayer h activeRef).delta_money (-1 * cost) with
        | (pl, r) =>
          let h := setPlayer h activeRef pl
          match r with
          | some e => (g, h, spent, some e)
          | none => spendUnits g h activeRef rest spent
      else if kind = sIron then
        let cost := iron_market_cost.getD g.iron_market_last_filled 0
        let newFill := min (g.iron_market_last_filled + 1) (iron_market_cost.length - 1)
        let g := { g with iron_market_last_filled := newFill }
        let spent := spent ++ [kind]
        match (getPlayer h activeRef).delta_money (-1 * cost) with
        | (pl, r) =>
          let h := setPlayer h activeRef pl
          match r with
          | some e => (g, h, spent, some e)
          | none => spendUnits g h activeRef rest spent
      else (g, h, spent, some errCannotBuy)

/-- Ledger `Game_State.spend_resources`: consume one unit per entry of
`resource_locations`, then require the multiset of kinds actually spent to
equal `required_resources` (the source compares the two sorted lists, which
is permutation equality).  The spent list, a local variable of the source,
is returned for specification purposes. -/
def spend_resources (g : GameState) (h : Heap) (_build_location : Str)
    (resource_locations required_resources : List Str) (activeRef : Nat) :
    GameState × Heap × List Str × Option String :=
  match spendUnits g h activeRef resource_locations [] with
  | (g, h, spent, some e) => (g, h, spent, some e)
  | (g, h, spent, none) =>
    if spent.Perm required_resources then (g, h, spent, none)
    else (g, h, spent, some errSpentMismatch)

/-!  ### Turn engine (`_take_action_self` and helpers). -/

/-- Message of an out-of-turn action. -/
def errWrongPlayer : String := "Invalid action: player cannot take an action during another player's turn."

/-- Message of an age-restricted build. -/
def errAgeRestriction : String := "Invalid action: player cannot build this tile in this age."

/-- Message of a rail link with a bad argument count. -/
def errRailArgCount : String := "Invalid action: player cannot build a rail link at this time."

/-- Message of selling a tile that is not on the board. -/
def errNoSuchTile : String := "Invalid action: player cannot sell a resource from this tile at this time."

/-- Message of the unimplemented scout action. -/
def errScout : String := "Invalid action: player cannot scout at this time."

/-- Message of the unimplemented pass action. -/
def errPass : String := "Invalid action: player cannot pass at this time."

/-- Message of an unknown action kind. -/
def errUnknownAction : String := "Invalid action: not a valid action."

/-- Message of `action.arguments[0]` on an empty argument list (an uncaught
`IndexError` in the source). -/
def errNoArgument : String := "IndexError: action has no arguments."

/-- Turn bookkeeping `increment_card_play`: advance the card counters,
rotate the active player every second card (with the first-round special
case on `active_player_card`), and advance the round when the index wraps. -/
def increment_card_play (g : GameState) : GameState :=
  let g := { g with card_play := g.card_play + 1,
                    active_player_card := g.active_player_card + 1 }
  let g : GameState :=
    if 2 ≤ g.active_player_card then
      let g := { g with active_player_index := g.active_player_index + 1 }
      if g.card_play < g.playerRefs.length then { g with active_player_card := 1 }
      else { g with active_player_card := 0 }
    else g
  if g.playerRefs.length ≤ g.active_player_index then
    { g with active_player_index := 0, round := g.round + 1 }
  else g

/-- While loop of the build branch: sell the fresh producer's remaining
units into its market while the market's fill level is positive.  Each
iteration spends one unit from the tile (flipping it at zero), decrements
the fill level, and credits the builder the price at the decremented fill
level.  The loop is driven by a fuel argument instantiated with the tile's
remaining production, which strictly decreases each iteration, so the fuel
never runs out before the guard fails. -/
def autoSellLoop (cost : List Int) (activeRef : Nat) :
    Nat → PlayedIndustry → Heap → Nat → PlayedIndustry × Heap × Nat × Option String
  | 0, ind, h, fill => (ind, h, fill, none)
  | fuel + 1, ind, h, fill =>
    if 0 < ind.resource_remaining ∧ 0 < fill then
      match ind.spend_resource h with
      | (ind, h, some e) => (ind, h, fill, some e)
      | (ind, h, none) =>
        let fill := fill - 1
        match (getPlayer h activeRef).delta_money (cost.getD fill 0) with
        | (pl, r) =>
          let h := setPlayer h activeRef pl
          match r with
          | some e => (ind, h, fill, some e)
          | none => autoSellLoop cost activeRef fuel ind h fill
    else (ind, h, fill, none)

/-- Build branch of `_take_action_self` (after the tile came back from
`Player.build_tile`): age-restriction check, resource spend, append the new
played tile, and auto-sell a coal or iron producer's output into its
market. -/
def buildBranch (g : GameState) (h : Heap) (activeRef : Nat) (t : IndustryProperties)
    (arg : ActionArg) : GameState × Heap × Option String :=
  if t.age_restriction ≠ [] ∧ t.age_restriction ≠ g.age then (g, h, some errAgeRestriction)
  else
    match spend_resources g h arg.getLocation arg.getResources t.cost_list activeRef with
    | (g, h, _, some e) => (g, h, some e)
    | (g, h, _, none) =>
      let played := mkPlayedIndustry activeRef t g.age
      if t.industry = sCoal then
        match autoSellLoop coal_market_cost activeRef played.resource_remaining played h
            g.coal_market_last_filled with
        | (played, h, fill, r) =>
          ({ g with played_industries := g.played_industries ++ [played],
                    coal_market_last_filled := fill }, h, r)
      else if t.industry = sIron then
        match autoSellLoop iron_market_cost activeRef played.resource_remaining played h
            g.iron_market_last_filled with
        | (played, h, fill, r) =>
          ({ g with played_industries := g.played_industries ++ [played],
                    iron_market_last_filled := fill }, h, r)
      else
        ({ g with played_industries := g.played_industries ++ [played] }, h, none)

/-- Rail-era cost dispatch of the network branch: flat fee 5 plus one coal
for one argument group; flat fee 15 plus one coal and one coal-beer pair for
two groups; failure otherwise.  The third component logs the kinds the
ledger calls consumed. -/
def networkRailStep (g : GameState) (h : Heap) (activeRef : Nat) (args : List ActionArg) :
    GameState × Heap × List Str × Option String :=
  if args.length = 1 then
    match (getPlayer h activeRef).delta_money (-5) with
    | (pl, r) =>
      let h := setPlayer h activeRef pl
      match r with
      | some e => (g, h, [], some e)
      | none =>
        match spend_resources g h sUnknown [sCoal] [sCoal] activeRef with
        | (g, h, spent, r) => (g, h, [] ++ spent, r)
  else if args.length = 2 then
    match (getPlayer h activeRef).delta_money (-15) with
    | (pl, r) =>
      let h := setPlayer h activeRef pl
      match r with
      | some e => (g, h, [], some e)
      | none =>
        match spend_resources g h sUnknown [sCoal] [sCoal] activeRef with
        | (g, h, spent, some e) => (g, h, [] ++ spent, some e)
        | (g, h, spent, none) =>
          match spend_resources g h sUnknown [sCoal, sBeer] [sCoal, sBeer] activeRef with
          | (g, h, spent2, r) => (g, h, [] ++ spent ++ spent2, r)
  else (g, h, [], some errRailArgCount)

/-- Network branch of `_take_action_self`.  The list of kinds consumed by
its ledger calls (which `_take_action_self` discards) is returned for
specification purposes.  The canal fee applies whenever the age is "canal";
the argument-count dispatch exists only under the rail age (the log of
kinds consumed entering it is always empty); the opaque link marker is
appended after whichever cost branch ran. -/
def networkBranch (g : GameState) (h : Heap) (activeRef : Nat) (args : List ActionArg) :
    GameState × Heap × List Str × Option String :=
  let step1 : GameState × Heap × List Str × Option String :=
    if g.age = sCanal then
      match (getPlayer h activeRef).delta_money (-3) with
      | (pl, r) => (g, setPlayer h activeRef pl, [], r)
    else (g, h, [], none)
  match step1 with
  | (g, h, log, some e) => (g, h, log, some e)
  | (g, h, log, none) =>
    let step2 : GameState × Heap × List Str × Option String :=
      if g.age = sRail then networkRailStep g h activeRef args
      else (g, h, log, none)
    match step2 with
    | (g, h, log, some e) => (g, h, log, some e)
    | (g, h, log, none) =>
      ({ g with played_links := g.played_links ++ [sUnknown] }, h, log, none)

/-- Develop branch of `_take_action_self`: per argument, develop the named
tile for the active player, then spend one iron — through the module-level
global `game` (`gext` here), not `self`: the source's line
`game.spend_resources(...)` closes over the script's global game state. -/
def developLoop (props : GameProperties) (gext : GameState) (g : GameState) (h : Heap)
    (activeRef : Nat) : List ActionArg → GameState × GameState × Heap × Option String
  | [] => (gext, g, h, none)
  | arg :: rest =>
    match (getPlayer h activeRef).develop_tile props arg.getTile with
    | (pl, r) =>
      let h := setPlayer h activeRef pl
      match r with
      | some e => (gext, g, h, some e)
      | none =>
        match spend_resources gext h sUnknown arg.getResources [sIron] activeRef with
        | (gext, h, _, some e) => (gext, g, h, some e)
        | (gext, h, _, none) => developLoop props gext g h activeRef rest

/-- Scan of the sell branch: `next(industry for industry in
played_industries if industry.properties.name == tile_name)` followed by
`played_industry.sell(...)` on the first match.  The failure value of
`sell` is discarded at this call site in the source, so only the mutations
are kept.  `none` is the not-found case. -/
def sellFirst (inds : List PlayedIndustry) (h : Heap) (nm : Str) :
    Option (List PlayedIndustry × Heap × IndustryProperties) :=
  match inds with
  | [] => none
  | ind :: rest =>
    if ind.properties.name = nm then
      match ind.sell h with
      | (ind', h', _) => some (ind' :: rest, h', ind.properties)
    else
      match sellFirst rest h nm with
      | none => none
      | some (rest', h', t) => some (ind :: rest', h', t)

/-- Interpreter `_take_action_self`, acting on the state in place.  `gext`
is the module-level global game state referenced by the develop branch.
Returns the external state, the acted-on state, the heap, and the failure
value (`none` = the action was reported successful and the card play
advanced). -/
def takeActionSelf (props : GameProperties) (gext : GameState) (g : GameState) (h : Heap)
    (a : Action) : GameState × GameState × Heap × Option String :=
  let activeRef := g.playerRefs.getD g.active_player_index 0
  if a.player_id ≠ (getPlayer h activeRef).player_id then (gext, g, h, some errWrongPlayer)
  else
    let branch : GameState × GameState × Heap × Option String :=
      if a.main_action = sBuild then
        match a.arguments with
        | [] => (gext, g, h, some errNoArgument)
        | arg :: _ =>
          match (getPlayer h activeRef).build_tile props arg.getTile with
          | (pl, res) =>
            let h := setPlayer h activeRef pl
            match res with
            | .inl e => (gext, g, h, some e)
            | .inr t =>
              match buildBranch g h activeRef t arg with
              | (g, h, r) => (gext, g, h, r)
      else if a.main_action = sNetwork then
        match networkBranch g h activeRef a.arguments with
        | (g, h, _, r) => (gext, g, h, r)
      else if a.main_action = sDevelop then
        developLoop props gext g h activeRef a.arguments
      else if a.main_action = sSell then
        match a.arguments with
        | [] => (gext, g, h, some errNoArgument)
        | arg :: _ =>
          match sellFirst g.played_industries h arg.getTile with
          | none => (gext, g, h, some errNoSuchTile)
          | some (inds', h, t) =>
            let g := { g with played_industries := inds' }
            match spend_resources g h sUnknown (List.replicate t.beer_cost sBeer)
                (List.replicate t.beer_cost sBeer) activeRef with
            | (g, h, _, r) => (gext, g, h, r)
      else if a.main_action = sLoan then
        match (getPlayer h activeRef).loan with
        | (pl, _) => (gext, g, setPlayer h activeRef pl, none)
      else if a.main_action = sScout then (gext, g, h, some errScout)
      else if a.main_action = sPass then (gext, g, h, some errPass)
      else (gext, g, h, some errUnknownAction)
    match branch with
    | (gext, g, h, some e) => (gext, g, h, some e)
    | (gext, g, h, none) => (gext, increment_card_play g, h, none)

/-!  ### State copying and the playout driver (`Game_State.copy`,
`take_action_copy`, `get_untested_actions`, `Supervisor.get_valid_children`). -/

/-- Copy `Game_State.copy`: allocate a fresh copy of every player object
(`[player.copy() for player in self.players]`) at new heap addresses, while
the copied played tiles (`Played_Industry.copy`, a `copy.copy`) keep their
old `playerRef` addresses, and the link list is sliced.  The lineage
attributes are metadata only and are not modelled. -/
def copyState (g : GameState) (h : Heap) : GameState × Heap :=
  let newRefs := (List.range g.playerRefs.length).map (fun i => h.length + i)
  let copies := g.playerRefs.map (getPlayer h)
  ({ g with playerRefs := newRefs }, h ++ copies)

/-- Driver entry `take_action_copy`: copy the state, then act on the copy in
place. -/
def takeActionCopy (props : GameProperties) (gext : GameState) (g : GameState) (h : Heap)
    (a : Action) : GameState × GameState × Heap × Option String :=
  match copyState g h with
  | (g', h') => takeActionSelf props gext g' h' a

/-- Loan candidate built by `get_untested_actions`. -/
def loanCandidate (g : GameState) : Action :=
  { card_play := g.card_play, player_id := g.active_player_index, used_card := sCard,
    main_action := sLoan, arguments := [] }

/-- Candidate enumeration `get_untested_actions`: one build per buildable
tile (resources prefilled with the tile's cost list, placeholder location),
the loan candidate, and one sell per unflipped manufactured played tile;
`player_id` is the active player's index. -/
def get_untested_actions (props : GameProperties) (g : GameState) (h : Heap) : List Action :=
  let active := getPlayer h (g.playerRefs.getD g.active_player_index 0)
  let builds := (active.get_build_options props).map fun t =>
    { card_play := g.card_play, player_id := g.active_player_index, used_card := sUnknown,
      main_action := sBuild,
      arguments := [.build t.name sAtUnknown0 t.cost_list] }
  let loanA : Action := loanCandidate g
  let sells := g.played_industries.filterMap fun ind =>
    if ind.properties.industry_type = sManufactured ∧ ind.flipped = false then
      some { card_play := g.card_play, player_id := g.active_player_index,
             used_card := sUnknown, main_action := sSell,
             arguments := [.sell ind.properties.name sDollarUnknown0
               (List.replicate ind.properties.beer_cost sBeer)] }
    else none
  builds ++ [loanA] ++ sells

/-- Loop of `Supervisor.get_valid_children`: dry-run every candidate through
`take_action_copy` and keep the successors whose failure value is empty.
The heap and the external game state are threaded through the successive
dry runs, as the shared Python object memory is. -/
def validChildrenLoop (props : GameProperties) (g : GameState) :
    List Action → GameState → Heap → List GameState → List GameState × GameState × Heap
  | [], gext, h, acc => (acc, gext, h)
  | a :: rest, gext, h, acc =>
    match takeActionCopy props gext g h a with
    | (gext', child, h', none) => validChildrenLoop props g rest gext' h' (acc ++ [child])
    | (gext', _, h', some _) => validChildrenLoop props g rest gext' h' acc

/-- Driver `Supervisor.get_valid_children`. -/
def get_valid_children (props : GameProperties) (gext : GameState) (g : GameState) (h : Heap) :
    List GameState × GameState × Heap :=
  validChildrenLoop props g (get_untested_actions props g h) gext h []

/-- Initial player object (`Player.__init__` with id 0): starting money,
zero points and income, all `industry_next` entries 0. -/
def initPlayer : Player :=
  { money := starting_money, player_id := 0, points := 0, income_level := 0,
    industry_next := fun _ => 0 }

/-- Initial game state (`Game_State.__init__`): one player, canal age,
counters as initialized, coal market fill 1, iron market fill 2. -/
def initGame : GameState :=
  { playerRefs := [0], age := sCanal, round := 0, card_play := 0,
    active_player_index := 0, active_player_card := 1,
    coal_market_last_filled := 1, iron_market_last_filled := 2,
    played_industries := [], played_links := [] }

/-- Initial heap: the single player object of the fresh game. -/
def initHeap : Heap := [initPlayer]

/-- Reachability of a game state (with its heap) from the fresh game by
successful `take_action_copy` steps, for an arbitrary external game state
at each step. -/
inductive Reachable (props : GameProperties) : GameState → Heap → Prop where
  | init : Reachable props initGame initHeap
  | step : ∀ {g h g' h' : _} (gext gext' : GameState) (a : Action),
      Reachable props g h →
      takeActionCopy props gext g h a = (gext', g', h', none) →
      Reachable props g' h'

/-!  ### Concrete fixtures used to settle the claims on explicit inputs. -/

/-- Catalog with no tiles at all. -/
def props0 : GameProperties :=
  { industry_dict := fun _ => none, industry_layout := fun _ => [] }

/-- Coal producer tile "Coal0": costs 1 money, produces 1 coal unit. -/
def coalTile : IndustryProperties :=
  { name := sCoal ++ ['0'], industry := sCoal, industry_type := sCoal, sequence := 0,
    money_cost := 1, coal_cost := 0, iron_cost := 0, age_restriction := [], beer_cost := 0,
    development_restriction := false, coal_production := 1, iron_production := 0,
    beer_production_canal := 0, beer_production_rail := 0, points := 0, income_levels := 0 }

/-- Catalog holding only the coal tile. -/
def props1 : GameProperties :=
  { industry_dict := fun nm => if nm = coalTile.name then some coalTile else none,
    industry_layout := fun fam => if fam = sCoal then [coalTile] else [] }

/-- Manufactured tile "Crate0": 5 points and 1 income level on flip, no beer
cost. -/
def crateTile : IndustryProperties :=
  { name := sCrate ++ ['0'], industry := sCrate, industry_type := sManufactured, sequence := 0,
    money_cost := 0, coal_cost := 0, iron_cost := 0, age_restriction := [], beer_cost := 0,
    development_restriction := false, coal_production := 0, iron_production := 0,
    beer_production_canal := 0, beer_production_rail := 0, points := 5, income_levels := 1 }

/-- Build command for the coal tile. -/
def buildCoalAct : Action :=
  { card_play := 0, player_id := 0, used_card := sUnknown, main_action := sBuild,
    arguments := [.build coalTile.name sAtUnknown0 []] }

/-- Loan command for player 0. -/
def loanAct : Action :=
  { card_play := 0, player_id := 0, used_card := sCard, main_action := sLoan, arguments := [] }

/-- Sell command for the crate tile. -/
def sellCrateAct : Action :=
  { card_play := 0, player_id := 0, used_card := sUnknown, main_action := sSell,
    arguments := [.sell crateTile.name sDollarUnknown0 []] }

/-- Network command with an empty argument list. -/
def netAct0 : Action :=
  { card_play := 0, player_id := 0, used_card := sCard, main_action := sNetwork,
    arguments := [] }

/-- State with one unflipped crate tile on the board, owned by the player at
address 0 (the state's own player). -/
def gCrate : GameState :=
  { initGame with played_industries := [⟨0, crateTile, false, 0⟩] }

/-- State with the crate tile already flipped. -/
def gCrateFlipped : GameState :=
  { initGame with played_industries := [⟨0, crateTile, true, 0⟩] }

/-- State whose coal market fill level is 2. -/
def gCoalFill2 : GameState :=
  { initGame with coal_market_last_filled := 2 }

/-- Player who already drew one income level. -/
def playerIncome2 : Player := { initPlayer with income_level := 2 }

/-- Heap for `playerIncome2`. -/
def heapIncome2 : Heap := [playerIncome2]

/-!  ### C1: state copies are not independent — a flip award performed on a
child mutates the parent's player object. -/

/-- Claim C1 (code bug evaluated): `take_action_copy` of a sell command on a
state with one crate tile is reported successful, and the score award of the
child's flip lands on the player object at address 0 — the parent state's
own player (the child's player lives at the fresh address 1).  The parent's
player object goes from 0 points to 5 points, so the mutation performed on
the child is observable from the original state, contradicting the claim
that the child is a fully independent copy. -/
theorem c1_child_flip_mutates_parent :
    (getPlayer initHeap 0).points = 0 ∧
    gCrate.playerRefs = [0] ∧
    (takeActionCopy props0 initGame gCrate initHeap sellCrateAct).2.1.playerRefs = [1] ∧
    (takeActionCopy props0 initGame gCrate initHeap sellCrateAct).2.2.2 = none ∧
    (getPlayer (takeActionCopy props0 initGame gCrate initHeap sellCrateAct).2.2.1 0).points = 5 ∧
    (getPlayer (takeActionCopy props0 initGame gCrate initHeap sellCrateAct).2.2.1 1).points = 0 := by
  decide

/-!  ### C4: a failing loan is not surfaced in validate mode. -/

/-- Claim C4 (code bug evaluated): from the fresh game (income level 0), the
`Player.loan` mutator itself reports a failure (income would go negative),
yet the loan command through the interpreter is reported successful — the
call site discards the returned failure value — leaving income level -3 and
money 66 on the state the caller keeps. -/
theorem c4_loan_failure_not_surfaced :
    (initPlayer.loan).2.isSome = true ∧
    (takeActionSelf props0 initGame initGame initHeap loanAct).2.2.2 = none ∧
    (getPlayer (takeActionSelf props0 initGame initGame initHeap loanAct).2.2.1 0).money = 66 ∧
    (getPlayer (takeActionSelf props0 initGame initGame initHeap loanAct).2.2.1 0).income_level
      = -3 := by
  decide

/-!  ### C5: the income-level invariant fails after a successful command. -/

/-- Claim C5 (code bug evaluated): a loan taken at income level 2 is
reported successful by `take_action_copy` (the inner failure is discarded),
and the resulting state's player — the child's player at the fresh
address 1 — has income level -1, outside [0, 99]. -/
theorem c5_income_range_violated :
    (takeActionCopy props0 initGame initGame heapIncome2 loanAct).2.2.2 = none ∧
    (getPlayer (takeActionCopy props0 initGame initGame heapIncome2 loanAct).2.2.1 1).income_level
      < 0 := by
  decide

/-!  ### C7: a failing sell transition is not surfaced. -/

/-- Claim C7 (code bug evaluated): selling the crate tile when its first
matching board entry is already flipped makes `Played_Industry.sell` report
a failure, yet the sell command through the interpreter is reported
successful — its call site discards the returned failure value. -/
theorem c7_sell_failure_not_surfaced :
    ((PlayedIndustry.sell ⟨0, crateTile, true, 0⟩ initHeap).2.2).isSome = true ∧
    (takeActionSelf props0 initGame gCrateFlipped initHeap sellCrateAct).2.2.2 = none := by
  decide

/-!  ### C3 (counterexample): the auto-sell credit uses the post-decrement
market price. -/

/-- Claim C3 (counterexample): building the coal producer with the coal
market at fill level 2 is successful and sells exactly one unit (the fill
level steps down to 1), but the credit is the price at the decremented
level 1, not the pre-decrement price at level 2 — the builder ends with
35 + price(1) = 36 money, not 35 + price(2) = 37. -/
theorem c3_counterexample_post_decrement_price :
    (takeActionSelf props1 initGame gCoalFill2 initHeap buildCoalAct).2.2.2 = none ∧
    gCoalFill2.coal_market_last_filled = 2 ∧
    (takeActionSelf props1 initGame gCoalFill2 initHeap buildCoalAct).2.1.coal_market_last_filled
      = 1 ∧
    (getPlayer (takeActionSelf props1 initGame gCoalFill2 initHeap buildCoalAct).2.2.1 0).money
      = 35 + coal_market_cost.getD 1 0 ∧
    (getPlayer (takeActionSelf props1 initGame gCoalFill2 initHeap buildCoalAct).2.2.1 0).money
      ≠ 35 + coal_market_cost.getD 2 0 := by
  decide

/-!  ### C6 (counterexample): a sold tile flips with its remaining
production units untouched. -/

/-- Claim C6 (counterexample): selling a manufactured tile that still holds
2 production units succeeds and flips it, but its remaining-production
count stays 2, so a flipped tile need not have 0 remaining units. -/
theorem c6_counterexample_sell_keeps_remaining :
    ((PlayedIndustry.sell ⟨0, crateTile, false, 2⟩ initHeap).2.2 = none) ∧
    ((PlayedIndustry.sell ⟨0, crateTile, false, 2⟩ initHeap).1.flipped = true) ∧
    ((PlayedIndustry.sell ⟨0, crateTile, false, 2⟩ initHeap).1.resource_remaining = 2) := by
  decide

/-!  ### C8 (counterexample): the argument-count check does not exist in the
canal era. -/

/-- Claim C8 (counterexample): in the canal era a network command carrying
zero argument groups is reported successful (flat fee 3, link appended),
so it is not the case that every argument-group count other than 1 or 2
fails. -/
theorem c8_counterexample_canal_zero_args :
    initGame.age = sCanal ∧
    netAct0.arguments.length = 0 ∧
    (takeActionSelf props0 initGame initGame initHeap netAct0).2.2.2 = none ∧
    (takeActionSelf props0 initGame initGame initHeap netAct0).2.1.played_links = [sUnknown] ∧
    (getPlayer (takeActionSelf props0 initGame initGame initHeap netAct0).2.2.1 0).money
      = 33 := by
  decide

/-!  ### C2: the resource ledger's multiset accounting. -/

/-- Predicate "no played tile of family `k` has remaining production". -/
def NoSupply (k : Str) (inds : List PlayedIndustry) : Prop :=
  ∀ ind ∈ inds, ¬(ind.properties.industry = k ∧ 0 < ind.resource_remaining)

/-- Transition `spend_resource` keeps the tile's definition and never
increases its remainder. -/
theorem spend_resource_shape (ind : PlayedIndustry) (h : Heap) :
    (ind.spend_resource h).1.properties = ind.properties ∧
    (ind.spend_resource h).1.resource_remaining ≤ ind.resource_remaining := by
  unfold PlayedIndustry.spend_resource
  split
  · exact ⟨rfl, Nat.le_refl _⟩
  · split
    · exact ⟨rfl, Nat.le_refl _⟩
    · dsimp only
      split
      · exact ⟨rfl, Nat.sub_le _ _⟩
      · exact ⟨rfl, Nat.sub_le _ _⟩

/-- Scan result under an empty supply: the for/else loop falls through. -/
theorem boardSpend_none_of_noSupply {k : Str} {inds : List PlayedIndustry} (h : Heap)
    (hs : NoSupply k inds) : boardSpend inds h k = none := by
  induction inds with
  | nil => rfl
  | cons ind rest ih =>
    unfold boardSpend
    rw [if_neg (hs ind (List.mem_cons_self ind rest))]
    rw [ih fun i hi => hs i (List.mem_cons_of_mem ind hi)]

/-- Scanning for any kind preserves the emptiness of `k`'s supply. -/
theorem boardSpend_preserves_noSupply {k k' : Str} {inds inds' : List PlayedIndustry}
    {h h' : Heap} {r : Option String} (hs : NoSupply k inds)
    (he : boardSpend inds h k' = some (inds', h', r)) : NoSupply k inds' := by
  induction inds generalizing inds' h h' r with
  | nil => simp [boardSpend] at he
  | cons ind rest ih =>
    unfold boardSpend at he
    by_cases hc : ind.properties.industry = k' ∧ 0 < ind.resource_remaining
    · rw [if_pos hc] at he
      rcases hsp : ind.spend_resource h with ⟨i2, h2, r2⟩
      rw [hsp] at he
      simp only [Option.some.injEq, Prod.mk.injEq] at he
      obtain ⟨he1, -, -⟩ := he
      subst he1
      intro j hj
      rcases List.mem_cons.mp hj with hj | hj
      · subst hj
        have hshape := spend_resource_shape ind h
        rw [hsp] at hshape
        obtain ⟨hprop, hrem⟩ := hshape
        dsimp only at hprop hrem
        intro ⟨hk, hpos⟩
        exact hs ind (List.mem_cons_self ind rest)
          ⟨hprop ▸ hk, Nat.lt_of_lt_of_le hpos hrem⟩
      · exact hs j (List.mem_cons_of_mem ind hj)
    · rw [if_neg hc] at he
      rcases hb : boardSpend rest h k' with - | ⟨rest', h2, r2⟩ <;> rw [hb] at he
      · simp at he
      · simp only [Option.some.injEq, Prod.mk.injEq] at he
        obtain ⟨he1, -, -⟩ := he
        subst he1
        intro j hj
        rcases List.mem_cons.mp hj with hj | hj
        · subst hj
          exact hs j (List.mem_cons_self j rest)
        · exact ih (fun i hi => hs i (List.mem_cons_of_mem ind hi)) hb j hj

/-- Per-unit loop bookkeeping: a run that ends without failure consumed one
unit for every entry of `locs`, in order. -/
theorem spendUnits_none_spent {g g' : GameState} {h h' : Heap} {ref : Nat} {spent : List Str}
    {locs acc : List Str} (he : spendUnits g h ref locs acc = (g', h', spent, none)) :
    spent = acc ++ locs := by
  induction locs generalizing g h acc with
  | nil =>
    simp only [spendUnits, Prod.mk.injEq] at he
    simp [he.2.2.1]
  | cons kind rest ih =>
    unfold spendUnits at he
    rcases hb : boardSpend g.played_industries h kind with - | ⟨inds', h2, r2⟩ <;> rw [hb] at he
    · by_cases hk : kind = sCoal
      · rw [if_pos hk] at he
        dsimp only at he
        rcases hd : (getPlayer h ref).delta_money
            (-1 * coal_market_cost.getD g.coal_market_last_filled 0) with ⟨pl, r⟩
        rw [hd] at he
        cases r with
        | some e => simp at he
        | none => simpa [List.append_assoc] using ih he
      · rw [if_neg hk] at he
        by_cases hk2 : kind = sIron
        · rw [if_pos hk2] at he
          dsimp only at he
          rcases hd : (getPlayer h ref).delta_money
              (-1 * iron_market_cost.getD g.iron_market_last_filled 0) with ⟨pl, r⟩
          rw [hd] at he
          cases r with
          | some e => simp at he
          | none => simpa [List.append_assoc] using ih he
        · rw [if_neg hk2] at he
          simp at he
    · dsimp only at he
      cases r2 with
      | some e => simp at he
      | none => simpa [List.append_assoc] using ih he

/-- Per-unit loop failure: a required kind the market cannot supply, with no
on-board producer, makes the loop fail by the time that unit is processed. -/
theorem spendUnits_isSome_of_bad_kind {g : GameState} {h : Heap} {ref : Nat} {k : Str}
    {locs acc : List Str} (hmem : k ∈ locs) (hc : k ≠ sCoal) (hi : k ≠ sIron)
    (hs : NoSupply k g.played_industries) :
    ((spendUnits g h ref locs acc).2.2.2).isSome = true := by
  induction locs generalizing g h acc with
  | nil => cases hmem
  | cons kind rest ih =>
    unfold spendUnits
    by_cases hkk : kind = k
    · subst hkk
      rw [boardSpend_none_of_noSupply h hs]
      simp [hc, hi]
    · have hmem' : k ∈ rest := by
        rcases List.mem_cons.mp hmem with h1 | h1
        · exact absurd h1.symm hkk
        · exact h1
      rcases hb : boardSpend g.played_industries h kind with - | ⟨inds', h2, r2⟩
      · by_cases hk : kind = sCoal
        · rw [if_pos hk]
          dsimp only
          rcases hd : (getPlayer h ref).delta_money
              (-1 * coal_market_cost.getD g.coal_market_last_filled 0) with ⟨pl, r⟩
          cases r with
          | some e => rfl
          | none => exact ih hmem' hs
        · rw [if_neg hk]
          by_cases hk2 : kind = sIron
          · rw [if_pos hk2]
            dsimp only
            rcases hd : (getPlayer h ref).delta_money
                (-1 * iron_market_cost.getD g.iron_market_last_filled 0) with ⟨pl, r⟩
            cases r with
            | some e => rfl
            | none => exact ih hmem' hs
          · rw [if_neg hk2]
            rfl
      · dsimp only
        cases r2 with
        | some e => rfl
        | none => exact ih hmem' (boardSpend_preserves_noSupply hs hb)

/-- Ledger success implies the spent list is a permutation of the required
list (this is the final sorted-lists comparison of the source). -/
theorem spend_resources_success_perm {g : GameState} {h : Heap} {loc : Str}
    {locs req : List Str} {ref : Nat}
    (he : (spend_resources g h loc locs req ref).2.2.2 = none) :
    (spend_resources g h loc locs req ref).2.2.1.Perm req := by
  unfold spend_resources at he ⊢
  rcases hu : spendUnits g h ref locs [] with ⟨g2, h2, spent2, r2⟩
  rw [hu] at he
  cases r2 with
  | some e => simp at he
  | none =>
    dsimp only at he ⊢
    by_cases hp : spent2.Perm req
    · rw [if_pos hp]
      exact hp
    · rw [if_neg hp] at he
      simp at he

/-- Ledger success also implies the spent list is exactly the
caller-supplied unit list. -/
theorem spend_resources_success_spent {g : GameState} {h : Heap} {loc : Str}
    {locs req : List Str} {ref : Nat}
    (he : (spend_resources g h loc locs req ref).2.2.2 = none) :
    (spend_resources g h loc locs req ref).2.2.1 = locs := by
  unfold spend_resources at he ⊢
  rcases hu : spendUnits g h ref locs [] with ⟨g2, h2, spent2, r2⟩
  rw [hu] at he
  cases r2 with
  | some e => simp at he
  | none =>
    dsimp only at he ⊢
    by_cases hp : spent2.Perm req
    · rw [if_pos hp]
      simpa using spendUnits_none_spent hu
    · rw [if_neg hp] at he
      simp at he

/-- Claim C2 (confirmed): whenever `spend_resources` reports success, the
multiset of resource kinds actually consumed — the `spent_resources` list
it accumulates over board producers and market purchases — equals the
required multiset exactly; and a required kind other than Coal or Iron with
no on-board supply always produces a failure (either at that unit, or in
the final multiset comparison when the unit list omits the kind). -/
theorem c2_spend_resources_multiset_exact :
    (∀ (g : GameState) (h : Heap) (loc : Str) (locs req : List Str) (ref : Nat),
      (spend_resources g h loc locs req ref).2.2.2 = none →
      ((spend_resources g h loc locs req ref).2.2.1 : Multiset Str) = (req : Multiset Str)) ∧
    (∀ (g : GameState) (h : Heap) (loc : Str) (locs req : List Str) (ref : Nat) (k : Str),
      k ∈ req → k ≠ sCoal → k ≠ sIron → NoSupply k g.played_industries →
      ((spend_resources g h loc locs req ref).2.2.2).isSome = true) := by
  constructor
  · intro g h loc locs req ref he
    exact Multiset.coe_eq_coe.mpr (spend_resources_success_perm he)
  · intro g h loc locs req ref k hmem hc hi hs
    rcases hr : (spend_resources g h loc locs req ref).2.2.2 with - | e
    · exfalso
      have hperm := spend_resources_success_perm hr
      have hspent := spend_resources_success_spent hr
      have hmem' : k ∈ locs := hspent ▸ hperm.mem_iff.mpr hmem
      have hbad := @spendUnits_isSome_of_bad_kind g h ref _ _ [] hmem' hc hi hs
      unfold spend_resources at hr
      rcases hu : spendUnits g h ref locs [] with ⟨g2, h2, spent2, r2⟩
      rw [hu] at hr hbad
      cases r2 with
      | some e => simp at hbad hr ⊢
      | none => simp at hbad
    · rfl

/-- Claim C2 witness: the two parts of the theorem at concrete inputs — a
one-coal market spend from the fresh game succeeds with spent multiset
equal to the required one, and requiring a beer with an empty board
fails. -/
theorem c2_witness :
    ((spend_resources initGame initHeap sUnknown [sCoal] [sCoal] 0).2.2.1 : Multiset Str) =
      ([sCoal] : Multiset Str) ∧
    ((spend_resources initGame initHeap sUnknown [] [sBeer] 0).2.2.2).isSome = true := by
  constructor
  · exact c2_spend_resources_multiset_exact.1 initGame initHeap sUnknown [sCoal] [sCoal] 0
      (by decide)
  · exact c2_spend_resources_multiset_exact.2 initGame initHeap sUnknown [] [sBeer] 0 sBeer
      (by decide) (by decide) (by decide)
      (by intro ind hmem; simp [initGame] at hmem)

/-!  ### Field bookkeeping of the player mutators, used throughout. -/

/-- Fields of `delta_money`: only `money` changes, by exactly `delta`; the
failure value appears exactly when the new balance is negative. -/
theorem delta_money_fields (p : Player) (d : Int) :
    (p.delta_money d).1.money = p.money + d ∧
    (p.delta_money d).1.points = p.points ∧
    (p.delta_money d).1.income_level = p.income_level ∧
    (p.delta_money d).1.player_id = p.player_id ∧
    (p.delta_money d).1.industry_next = p.industry_next ∧
    ((p.delta_money d).2 = none ↔ 0 ≤ p.money + d) := by
  unfold Player.delta_money
  refine ⟨rfl, rfl, rfl, rfl, rfl, ?_⟩
  dsimp only
  split <;> rename_i hlt
  · simp
    omega
  · simp
    omega

/-- Fields of `award_points`: only `points` changes, and never below 0; no
failure value exists. -/
theorem award_points_fields (p : Player) (x : Int) :
    (p.award_points x).money = p.money ∧
    (p.award_points x).income_level = p.income_level ∧
    (p.award_points x).player_id = p.player_id ∧
    (p.award_points x).industry_next = p.industry_next ∧
    (p.award_points x).points = max (p.points + x) 0 := by
  unfold Player.award_points
  dsimp only
  split <;> rename_i hlt
  · refine ⟨rfl, rfl, rfl, rfl, ?_⟩
    dsimp only at hlt ⊢
    omega
  · refine ⟨rfl, rfl, rfl, rfl, ?_⟩
    dsimp only at hlt ⊢
    omega

/-- Fields of `award_income_levels`: only `income_level` changes; when the
new level is nonnegative the mutator succeeds and clamps at 99. -/
theorem award_income_fields (p : Player) (d : Int) :
    (p.award_income_levels d).1.money = p.money ∧
    (p.award_income_levels d).1.points = p.points ∧
    (p.award_income_levels d).1.player_id = p.player_id ∧
    (p.award_income_levels d).1.industry_next = p.industry_next ∧
    (0 ≤ p.income_level + d →
      (p.award_income_levels d).2 = none ∧
      (p.award_income_levels d).1.income_level = min (p.income_level + d) 99) := by
  unfold Player.award_income_levels
  dsimp only
  split <;> rename_i h1
  · refine ⟨rfl, rfl, rfl, rfl, fun hge => ?_⟩
    have h1' : p.income_level + d < 0 := h1
    exact absurd h1' (by omega)
  · split <;> rename_i h2
    · refine ⟨rfl, rfl, rfl, rfl, fun hge => ⟨rfl, ?_⟩⟩
      have h2' : 99 < p.income_level + d := h2
      show (99 : Int) = min (p.income_level + d) 99
      omega
    · refine ⟨rfl, rfl, rfl, rfl, fun hge => ⟨rfl, ?_⟩⟩
      have h2' : ¬99 < p.income_level + d := h2
      show p.income_level + d = min (p.income_level + d) 99
      omega

/-!  ### C6 (amended): the played-industry state machine. -/

/-- Claim C6 (amended, proved): on every played tile, (1) both transitions
reject an already-flipped tile, leaving tile and heap unchanged — so the
flip flag goes false to true at most once and no production, consumption or
further scoring is possible once flipped; (2) spending from an unexhausted
unflipped tile decrements the remainder by one, flips exactly when the
remainder reaches 0, touches the heap only at that flip, and at the flip
applies the score award followed by the income award to the owning player,
exactly once; (3) a sale of an unflipped manufactured tile flips it, leaves
its remaining-production count unchanged, and applies the same two awards
exactly once; (4) spending from an exhausted tile and selling a
non-manufactured tile fail without mutation. -/
theorem c6_amended_state_machine :
    (∀ (ind : PlayedIndustry) (h : Heap), ind.flipped = true →
      ind.spend_resource h = (ind, h, some errSpendTile) ∧
      ind.sell h = (ind, h, some errSellTile)) ∧
    (∀ (ind : PlayedIndustry) (h : Heap), ind.flipped = false → ind.resource_remaining ≠ 0 →
      (ind.spend_resource h).1.resource_remaining = ind.resource_remaining - 1 ∧
      (ind.spend_resource h).1.flipped = decide (ind.resource_remaining = 1) ∧
      (ind.resource_remaining ≠ 1 →
        (ind.spend_resource h).2.1 = h ∧ (ind.spend_resource h).2.2 = none) ∧
      (ind.resource_remaining = 1 →
        (ind.spend_resource h).2.1 = setPlayer h ind.playerRef
          (((getPlayer h ind.playerRef).award_points ind.properties.points).award_income_levels
            ind.properties.income_levels).1)) ∧
    (∀ (ind : PlayedIndustry) (h : Heap), ind.flipped = false →
      ind.properties.industry_type = sManufactured →
      (ind.sell h).1.flipped = true ∧
      (ind.sell h).1.resource_remaining = ind.resource_remaining ∧
      (ind.sell h).2.1 = setPlayer h ind.playerRef
        (((getPlayer h ind.playerRef).award_points ind.properties.points).award_income_levels
          ind.properties.income_levels).1) ∧
    (∀ (ind : PlayedIndustry) (h : Heap), ind.resource_remaining = 0 → ind.flipped = false →
      ind.spend_resource h = (ind, h, some errSpendTile)) ∧
    (∀ (ind : PlayedIndustry) (h : Heap), ind.properties.industry_type ≠ sManufactured →
      ind.sell h = (ind, h, some errSellTile)) := by
  refine ⟨?_, ?_, ?_, ?_, ?_⟩
  · intro ind h hf
    constructor
    · unfold PlayedIndustry.spend_resource
      rw [if_pos hf]
    · simp [PlayedIndustry.sell, hf]
  · intro ind h hf hr
    unfold PlayedIndustry.spend_resource
    rw [if_neg (by simp [hf]), if_neg hr]
    dsimp only
    by_cases h1 : ind.resource_remaining - 1 = 0
    · have h1' : ind.resource_remaining = 1 := by omega
      rw [if_pos h1]
      refine ⟨rfl, by simp [h1'], fun hne => absurd h1' hne, fun _ => ?_⟩
      rcases ha : ((getPlayer h ind.playerRef).award_points
          ind.properties.points).award_income_levels ind.properties.income_levels with ⟨pl, r⟩
      simp [ha]
    · have h1' : ind.resource_remaining ≠ 1 := by omega
      rw [if_neg h1]
      exact ⟨rfl, by simp [h1', hf], fun _ => ⟨rfl, rfl⟩, fun heq => absurd heq h1'⟩
  · intro ind h hf ht
    unfold PlayedIndustry.sell
    rw [if_neg (by simp [ht]), if_neg (by simp [hf])]
    dsimp only
    rcases ha : ((getPlayer h ind.playerRef).award_points
        ind.properties.points).award_income_levels ind.properties.income_levels with ⟨pl, r⟩
    simp [ha]
  · intro ind h hr hf
    unfold PlayedIndustry.spend_resource
    rw [if_neg (by simp [hf]), if_pos hr]
  · intro ind h ht
    unfold PlayedIndustry.sell
    rw [if_pos ht]

/-- Claim C6 witness: the amended theorem at concrete tiles — a flipped
tile rejects both transitions; spending the last unit of a coal tile flips
it at remainder 0 with the awards applied; selling an unflipped crate tile
flips it with the awards applied. -/
theorem c6_witness :
    (PlayedIndustry.spend_resource ⟨0, crateTile, true, 0⟩ initHeap
        = (⟨0, crateTile, true, 0⟩, initHeap, some errSpendTile)) ∧
    ((PlayedIndustry.spend_resource ⟨0, coalTile, false, 1⟩ initHeap).1.resource_remaining = 0) ∧
    ((PlayedIndustry.spend_resource ⟨0, coalTile, false, 1⟩ initHeap).1.flipped = true) ∧
    ((PlayedIndustry.sell ⟨0, crateTile, false, 0⟩ initHeap).1.flipped = true) := by
  refine ⟨((c6_amended_state_machine.1 ⟨0, crateTile, true, 0⟩ initHeap rfl).1), ?_, ?_, ?_⟩
  · have h2 := (c6_amended_state_machine.2.1 ⟨0, coalTile, false, 1⟩ initHeap rfl (by decide)).1
    simpa using h2
  · have h2 := (c6_amended_state_machine.2.1 ⟨0, coalTile, false, 1⟩ initHeap rfl (by decide)).2.1
    simpa using h2
  · exact (c6_amended_state_machine.2.2.1 ⟨0, crateTile, false, 0⟩ initHeap rfl (by decide)).1

/-!  ### Heap access lemmas. -/

/-- Reading the address just written. -/
theorem getPlayer_set_self {h : Heap} {r : Nat} (p : Player) (hr : r < h.length) :
    getPlayer (setPlayer h r p) r = p := by
  simp [getPlayer, setPlayer, List.getElem?_set_self hr]

/-- Reading another address after a write. -/
theorem getPlayer_set_ne {h : Heap} {r q : Nat} (p : Player) (hq : r ≠ q) :
    getPlayer (setPlayer h r p) q = getPlayer h q := by
  simp [getPlayer, setPlayer, List.getElem?_set_ne hq]

/-- Writes preserve the heap length. -/
theorem setPlayer_length (h : Heap) (r : Nat) (p : Player) :
    (setPlayer h r p).length = h.length := by
  simp [setPlayer]

/-- Entries of a nonnegative price list read through `getD` with default 0
are nonnegative. -/
theorem getD_nonneg {cost : List Int} (hc : ∀ x ∈ cost, 0 ≤ x) (j : Nat) :
    0 ≤ cost.getD j 0 := by
  rcases hj : cost[j]? with - | x
  · simp [List.getD_eq_getElem?_getD, hj]
  · have := hc x (List.getElem?_mem hj)
    simp [List.getD_eq_getElem?_getD, hj, this]

/-- One successful step of `spend_resource` on an unflipped, unexhausted
tile whose income award cannot fail: result components. -/
theorem spend_resource_step {ind : PlayedIndustry} (h : Heap) (hf : ind.flipped = false)
    (hr : ind.resource_remaining ≠ 0) (hinc : 0 ≤ ind.properties.income_levels)
    (hpi : 0 ≤ (getPlayer h ind.playerRef).income_level) (hlen : ind.playerRef < h.length) :
    (ind.spend_resource h).2.2 = none ∧
    (ind.spend_resource h).1.resource_remaining = ind.resource_remaining - 1 ∧
    (ind.spend_resource h).1.playerRef = ind.playerRef ∧
    (ind.spend_resource h).1.properties = ind.properties ∧
    (ind.spend_resource h).1.flipped = decide (ind.resource_remaining = 1) ∧
    (ind.spend_resource h).2.1.length = h.length ∧
    (getPlayer (ind.spend_resource h).2.1 ind.playerRef).money =
      (getPlayer h ind.playerRef).money ∧
    0 ≤ (getPlayer (ind.spend_resource h).2.1 ind.playerRef).income_level := by
  unfold PlayedIndustry.spend_resource
  rw [if_neg (by simp [hf]), if_neg hr]
  dsimp only
  by_cases h1 : ind.resource_remaining - 1 = 0
  · have h1' : ind.resource_remaining = 1 := by omega
    rw [if_pos h1]
    set p0 := getPlayer h ind.playerRef with hp0
    have hap := award_points_fields p0 ind.properties.points
    set p1 := p0.award_points ind.properties.points with hp1
    have hai := award_income_fields p1 ind.properties.income_levels
    have hok := hai.2.2.2.2 (by omega)
    rcases ha : p1.award_income_levels ind.properties.income_levels with ⟨pl, r⟩
    rw [ha] at hai hok
    dsimp only at hai hok ⊢
    refine ⟨hok.1, rfl, rfl, rfl, by simp [h1'], by simp [setPlayer], ?_, ?_⟩
    · rw [getPlayer_set_self pl hlen]
      rw [hai.1, hap.1]
    · rw [getPlayer_set_self pl hlen, hok.2]
      omega
  · have h1' : ind.resource_remaining ≠ 1 := by omega
    rw [if_neg h1]
    exact ⟨rfl, rfl, rfl, rfl, by simp [h1', hf], rfl, rfl, hpi⟩

/-!  ### C3 (amended): the build-time auto-sell loop. -/

/-- Claim C3 (amended, proved): for a fresh unflipped producer tile with
`r` remaining units facing a market at fill level `f`, the auto-sell loop
of the build branch succeeds, sells exactly `min r f` units — stepping the
fill level down by exactly one per unit sold, to `f - min r f`, and leaving
`r - min r f` units on the tile — and credits the builder, per unit sold,
the marginal price at the already-decremented fill level: in total the sum
of the prices at levels `f - 1, f - 2, ..., f - min r f` (not the prices at
the pre-decrement levels `f, ..., f - min r f + 1`). -/
theorem c3_amended_autosell_post_decrement (cost : List Int) :
    ∀ (r : Nat) (ind : PlayedIndustry) (h : Heap) (f : Nat),
      (∀ x ∈ cost, 0 ≤ x) →
      ind.resource_remaining = r → ind.flipped = false →
      ind.playerRef < h.length →
      0 ≤ (getPlayer h ind.playerRef).money →
      0 ≤ (getPlayer h ind.playerRef).income_level →
      0 ≤ ind.properties.income_levels →
      (autoSellLoop cost ind.playerRef r ind h f).2.2.2 = none ∧
      (autoSellLoop cost ind.playerRef r ind h f).2.2.1 = f - min r f ∧
      (autoSellLoop cost ind.playerRef r ind h f).1.resource_remaining = r - min r f ∧
      (getPlayer (autoSellLoop cost ind.playerRef r ind h f).2.1 ind.playerRef).money =
        (getPlayer h ind.playerRef).money +
          (Finset.Ico (f - min r f) f).sum (fun j => cost.getD j 0) := by
  intro r
  induction r with
  | zero =>
    intro ind h f hcost hr hf hlen hm hi hinc
    simp [autoSellLoop, hr]
  | succ n ih =>
    intro ind h f hcost hr hf hlen hm hi hinc
    by_cases hfz : f = 0
    · subst hfz
      simp [autoSellLoop, hr]
    · have hstep := spend_resource_step h hf (by omega) hinc hi hlen
      rcases hsp : ind.spend_resource h with ⟨ind1, h1, r1⟩
      rw [hsp] at hstep
      dsimp only at hstep
      obtain ⟨herr, hrem1, hpr1, hprop1, hflip1, hlen1, hmoney1, hinc1⟩ := hstep
      subst herr
      have hcf : 0 ≤ cost.getD (f - 1) 0 := getD_nonneg hcost (f - 1)
      have hdm := delta_money_fields (getPlayer h1 ind.playerRef) (cost.getD (f - 1) 0)
      rcases hd : (getPlayer h1 ind.playerRef).delta_money (cost.getD (f - 1) 0) with ⟨pl2, r2⟩
      rw [hd] at hdm
      dsimp only at hdm
      obtain ⟨hdmon, hdpts, hdinc, hdid, hdnext, hdok⟩ := hdm
      have hr2 : r2 = none := hdok.mpr (by omega)
      subst hr2
      have hloop : autoSellLoop cost ind.playerRef (n + 1) ind h f =
          autoSellLoop cost ind.playerRef n ind1 (setPlayer h1 ind.playerRef pl2) (f - 1) := by
        simp only [autoSellLoop]
        rw [if_pos (⟨by omega, by omega⟩ : 0 < ind.resource_remaining ∧ 0 < f), hsp]
        dsimp only
        rw [hd]
      rw [hloop]
      have hlen2 : ind.playerRef < (setPlayer h1 ind.playerRef pl2).length := by
        rw [setPlayer_length, hlen1]
        exact hlen
      have hm2 : (getPlayer (setPlayer h1 ind.playerRef pl2) ind.playerRef).money =
          (getPlayer h ind.playerRef).money + cost.getD (f - 1) 0 := by
        rw [getPlayer_set_self pl2 (by rw [hlen1]; exact hlen), hdmon, hmoney1]
      have hi2 : 0 ≤ (getPlayer (setPlayer h1 ind.playerRef pl2) ind.playerRef).income_level := by
        rw [getPlayer_set_self pl2 (by rw [hlen1]; exact hlen), hdinc]
        exact hinc1
      rcases Nat.eq_zero_or_pos n with hn | hn
      · subst hn
        simp only [autoSellLoop]
        have hone : (Finset.Ico (f - 1) f).sum (fun j => cost.getD j 0) =
            cost.getD (f - 1) 0 := by
          have hf1 : f = (f - 1) + 1 := by omega
          rw [hf1, Nat.add_sub_cancel, Finset.sum_Ico_succ_top (Nat.le_refl _),
            Finset.Ico_self, Finset.sum_empty, zero_add]
        have hbb : f - min (0 + 1) f = f - 1 := by omega
        refine ⟨by trivial, by omega, by omega, ?_⟩
        rw [hm2, hbb, hone]
      · have hflip1' : ind1.flipped = false := by
          rw [hflip1]
          simp
          omega
        have hih := ih ind1 (setPlayer h1 ind.playerRef pl2) (f - 1) hcost
          (by omega) hflip1' (hpr1 ▸ hlen2) (by rw [hpr1, hm2]; omega) (hpr1 ▸ hi2)
          (by rw [hprop1]; exact hinc)
        rw [hpr1] at hih
        obtain ⟨ih1, ih2, ih3, ih4⟩ := hih
        have hsum : (Finset.Ico ((f - 1) - min n (f - 1)) f).sum (fun j => cost.getD j 0) =
            (Finset.Ico ((f - 1) - min n (f - 1)) (f - 1)).sum (fun j => cost.getD j 0) +
              cost.getD (f - 1) 0 := by
          have hf1 : f = (f - 1) + 1 := by omega
          rw [hf1, Nat.add_sub_cancel]
          exact Finset.sum_Ico_succ_top (by omega) _
        have hbound : f - min (n + 1) f = (f - 1) - min n (f - 1) := by omega
        refine ⟨ih1, by omega, by omega, ?_⟩
        rw [ih4, hm2, hbound, hsum]
        omega

/-- Witness tile for the auto-sell loop: an unflipped coal producer holding
2 units. -/
def tileW : PlayedIndustry := ⟨0, coalTile, false, 2⟩

/-- Claim C3 witness: the amended theorem at a concrete tile (2 units) and
market (fill level 3): the loop succeeds, sells 2 units, and credits the
post-decrement prices. -/
theorem c3_witness :
    (autoSellLoop coal_market_cost tileW.playerRef 2 tileW initHeap 3).2.2.2 = none ∧
    (autoSellLoop coal_market_cost tileW.playerRef 2 tileW initHeap 3).2.2.1 = 3 - min 2 3 ∧
    (autoSellLoop coal_market_cost tileW.playerRef 2 tileW initHeap 3).1.resource_remaining
      = 2 - min 2 3 ∧
    (getPlayer (autoSellLoop coal_market_cost tileW.playerRef 2 tileW initHeap 3).2.1
        tileW.playerRef).money =
      (getPlayer initHeap tileW.playerRef).money +
        (Finset.Ico (3 - min 2 3) 3).sum (fun j => coal_market_cost.getD j 0) :=
  c3_amended_autosell_post_decrement coal_market_cost 2 tileW initHeap 3 (by decide) rfl rfl
    (by decide) (by decide) (by decide) (by decide)

/-- Writes that fix a player field fix that field at every address. -/
theorem getPlayer_set_field {β : Type} (fld : Player → β) {h : Heap} {r : Nat} {p : Player}
    (hp : fld p = fld (getPlayer h r)) (q : Nat) :
    fld (getPlayer (setPlayer h r p) q) = fld (getPlayer h q) := by
  by_cases hrq : r = q
  · subst hrq
    by_cases hlt : r < h.length
    · rw [getPlayer_set_self p hlt, hp]
    · unfold getPlayer setPlayer
      rw [List.set_eq_of_length_le (by omega)]
  · rw [getPlayer_set_ne p hrq]

/-- Writes that lower a player's funds lower every address's funds reading
(weak inequality). -/
theorem getPlayer_set_money_le {h : Heap} {r : Nat} {p : Player}
    (hp : p.money ≤ (getPlayer h r).money) (q : Nat) :
    (getPlayer (setPlayer h r p) q).money ≤ (getPlayer h q).money := by
  by_cases hrq : r = q
  · subst hrq
    by_cases hlt : r < h.length
    · rw [getPlayer_set_self p hlt]
      exact hp
    · unfold getPlayer setPlayer
      rw [List.set_eq_of_length_le (by omega)]
  · rw [getPlayer_set_ne p hrq]

/-- Spending a unit from a tile never changes any player's funds (the flip
awards touch only points and income). -/
theorem spend_resource_money_pres (ind : PlayedIndustry) (h : Heap) (q : Nat) :
    (getPlayer (ind.spend_resource h).2.1 q).money = (getPlayer h q).money := by
  unfold PlayedIndustry.spend_resource
  split
  · rfl
  · split
    · rfl
    · dsimp only
      split
      · set p0 := getPlayer h ind.playerRef with hp0
        have hap := award_points_fields p0 ind.properties.points
        have hai := award_income_fields (p0.award_points ind.properties.points)
          ind.properties.income_levels
        rcases ha : (p0.award_points ind.properties.points).award_income_levels
            ind.properties.income_levels with ⟨pl, r⟩
        rw [ha] at hai
        dsimp only at hai ⊢
        exact getPlayer_set_field Player.money (by rw [hai.1, hap.1]) q
      · rfl

/-- The board scan never changes any player's funds. -/
theorem boardSpend_money_pres {inds inds' : List PlayedIndustry} {h h' : Heap} {k : Str}
    {r : Option String} (he : boardSpend inds h k = some (inds', h', r)) (q : Nat) :
    (getPlayer h' q).money = (getPlayer h q).money := by
  induction inds generalizing inds' h' r with
  | nil => simp [boardSpend] at he
  | cons ind rest ih =>
    unfold boardSpend at he
    split at he
    · rcases hsp : ind.spend_resource h with ⟨i2, h2, r2⟩
      rw [hsp] at he
      simp only [Option.some.injEq, Prod.mk.injEq] at he
      obtain ⟨-, he2, -⟩ := he
      subst he2
      have := spend_resource_money_pres ind h q
      rw [hsp] at this
      exact this
    · rcases hb : boardSpend rest h k with - | ⟨rest', h2, r2⟩ <;> rw [hb] at he
      · simp at he
      · simp only [Option.some.injEq, Prod.mk.injEq] at he
        obtain ⟨-, he2, -⟩ := he
        subst he2
        exact ih hb

/-- The per-unit ledger loop never increases any player's funds. -/
theorem spendUnits_money_mono (locs : List Str) :
    ∀ (g : GameState) (h : Heap) (ref : Nat) (acc : List Str) (q : Nat),
      (getPlayer (spendUnits g h ref locs acc).2.1 q).money ≤ (getPlayer h q).money := by
  induction locs with
  | nil =>
    intro g h ref acc q
    simp [spendUnits]
  | cons kind rest ih =>
    intro g h ref acc q
    unfold spendUnits
    rcases hb : boardSpend g.played_industries h kind with - | ⟨inds', h2, r2⟩
    · by_cases hk : kind = sCoal
      · rw [if_pos hk]
        dsimp only
        have hcf : 0 ≤ coal_market_cost.getD g.coal_market_last_filled 0 :=
          getD_nonneg (by decide) _
        have hdm := delta_money_fields (getPlayer h ref)
          (-1 * coal_market_cost.getD g.coal_market_last_filled 0)
        rcases hd : (getPlayer h ref).delta_money
            (-1 * coal_market_cost.getD g.coal_market_last_filled 0) with ⟨pl, r⟩
        rw [hd] at hdm
        dsimp only at hdm
        have hple : (getPlayer (setPlayer h ref pl) q).money ≤ (getPlayer h q).money :=
          getPlayer_set_money_le (by rw [hdm.1]; omega) q
        cases r with
        | some e => exact hple
        | none => exact le_trans (ih _ _ ref _ q) hple
      · rw [if_neg hk]
        by_cases hk2 : kind = sIron
        · rw [if_pos hk2]
          dsimp only
          have hcf : 0 ≤ iron_market_cost.getD g.iron_market_last_filled 0 :=
            getD_nonneg (by decide) _
          have hdm := delta_money_fields (getPlayer h ref)
            (-1 * iron_market_cost.getD g.iron_market_last_filled 0)
          rcases hd : (getPlayer h ref).delta_money
              (-1 * iron_market_cost.getD g.iron_market_last_filled 0) with ⟨pl, r⟩
          rw [hd] at hdm
          dsimp only at hdm
          have hple : (getPlayer (setPlayer h ref pl) q).money ≤ (getPlayer h q).money :=
            getPlayer_set_money_le (by rw [hdm.1]; omega) q
          cases r with
          | some e => exact hple
          | none => exact le_trans (ih _ _ ref _ q) hple
        · rw [if_neg hk2]
    · dsimp only
      have hpres := boardSpend_money_pres hb q
      cases r2 with
      | some e => exact le_of_eq hpres
      | none => exact le_trans (ih _ _ ref _ q) (le_of_eq hpres)

/-- The ledger never increases any player's funds. -/
theorem spend_resources_money_mono (g : GameState) (h : Heap) (loc : Str)
    (locs req : List Str) (ref : Nat) (q : Nat) :
    (getPlayer (spend_resources g h loc locs req ref).2.1 q).money ≤ (getPlayer h q).money := by
  unfold spend_resources
  rcases hu : spendUnits g h ref locs [] with ⟨g2, h2, spent2, r2⟩
  have := spendUnits_money_mono locs g h ref [] q
  rw [hu] at this
  dsimp only at this
  cases r2 with
  | some e => exact this
  | none =>
    dsimp only
    split
    · exact this
    · exact this

/-!  ### Frame lemmas: what the ledger leaves untouched. -/

/-- Spending a unit preserves the heap length and every player's id. -/
theorem spend_resource_frame (ind : PlayedIndustry) (h : Heap) :
    (ind.spend_resource h).2.1.length = h.length ∧
    ∀ q, (getPlayer (ind.spend_resource h).2.1 q).player_id = (getPlayer h q).player_id := by
  unfold PlayedIndustry.spend_resource
  split
  · exact ⟨rfl, fun q => rfl⟩
  · split
    · exact ⟨rfl, fun q => rfl⟩
    · dsimp only
      split
      · set p0 := getPlayer h ind.playerRef with hp0
        have hap := award_points_fields p0 ind.properties.points
        have hai := award_income_fields (p0.award_points ind.properties.points)
          ind.properties.income_levels
        rcases ha : (p0.award_points ind.properties.points).award_income_levels
            ind.properties.income_levels with ⟨pl, r⟩
        rw [ha] at hai
        dsimp only at hai ⊢
        exact ⟨setPlayer_length .., fun q =>
          getPlayer_set_field Player.player_id (by rw [hai.2.2.1, hap.2.2.1]) q⟩
      · exact ⟨rfl, fun q => rfl⟩

/-- Selling a tile preserves the heap length and every player's id. -/
theorem sell_frame (ind : PlayedIndustry) (h : Heap) :
    (ind.sell h).2.1.length = h.length ∧
    ∀ q, (getPlayer (ind.sell h).2.1 q).player_id = (getPlayer h q).player_id := by
  unfold PlayedIndustry.sell
  split
  · exact ⟨rfl, fun q => rfl⟩
  · split
    · exact ⟨rfl, fun q => rfl⟩
    · dsimp only
      set p0 := getPlayer h ind.playerRef with hp0
      have hap := award_points_fields p0 ind.properties.points
      have hai := award_income_fields (p0.award_points ind.properties.points)
        ind.properties.income_levels
      rcases ha : (p0.award_points ind.properties.points).award_income_levels
          ind.properties.income_levels with ⟨pl, r⟩
      rw [ha] at hai
      dsimp only at hai ⊢
      exact ⟨setPlayer_length .., fun q =>
        getPlayer_set_field Player.player_id (by rw [hai.2.2.1, hap.2.2.1]) q⟩

/-- The board scan preserves the heap length and every player's id. -/
theorem boardSpend_frame {inds inds' : List PlayedIndustry} {h h' : Heap} {k : Str}
    {r : Option String} (he : boardSpend inds h k = some (inds', h', r)) :
    h'.length = h.length ∧
    ∀ q, (getPlayer h' q).player_id = (getPlayer h q).player_id := by
  induction inds generalizing inds' h' r with
  | nil => simp [boardSpend] at he
  | cons ind rest ih =>
    unfold boardSpend at he
    split at he
    · rcases hsp : ind.spend_resource h with ⟨i2, h2, r2⟩
      rw [hsp] at he
      simp only [Option.some.injEq, Prod.mk.injEq] at he
      obtain ⟨-, he2, -⟩ := he
      subst he2
      have := spend_resource_frame ind h
      rw [hsp] at this
      exact this
    · rcases hb : boardSpend rest h k with - | ⟨rest', h2, r2⟩ <;> rw [hb] at he
      · simp at he
      · simp only [Option.some.injEq, Prod.mk.injEq] at he
        obtain ⟨-, he2, -⟩ := he
        subst he2
        exact ih hb

/-- The per-unit ledger loop changes only the played-tile list, the market
fill levels, and player funds/points/income: every other state field, the
heap length and every player's id are preserved. -/
theorem spendUnits_frame (locs : List Str) :
    ∀ (g : GameState) (h : Heap) (ref : Nat) (acc : List Str),
      (spendUnits g h ref locs acc).1.playerRefs = g.playerRefs ∧
      (spendUnits g h ref locs acc).1.played_links = g.played_links ∧
      (spendUnits g h ref locs acc).1.age = g.age ∧
      (spendUnits g h ref locs acc).1.round = g.round ∧
      (spendUnits g h ref locs acc).1.card_play = g.card_play ∧
      (spendUnits g h ref locs acc).1.active_player_index = g.active_player_index ∧
      (spendUnits g h ref locs acc).1.active_player_card = g.active_player_card ∧
      (spendUnits g h ref locs acc).2.1.length = h.length ∧
      ∀ q, (getPlayer (spendUnits g h ref locs acc).2.1 q).player_id =
        (getPlayer h q).player_id := by
  induction locs with
  | nil =>
    intro g h ref acc
    exact ⟨rfl, rfl, rfl, rfl, rfl, rfl, rfl, rfl, fun q => rfl⟩
  | cons kind rest ih =>
    intro g h ref acc
    unfold spendUnits
    rcases hb : boardSpend g.played_industries h kind with - | ⟨inds', h2, r2⟩
    · by_cases hk : kind = sCoal
      · rw [if_pos hk]
        dsimp only
        have hdm := delta_money_fields (getPlayer h ref)
          (-1 * coal_market_cost.getD g.coal_market_last_filled 0)
        rcases hd : (getPlayer h ref).delta_money
            (-1 * coal_market_cost.getD g.coal_market_last_filled 0) with ⟨pl, r⟩
        rw [hd] at hdm
        dsimp only at hdm
        have hset : ∀ q, (getPlayer (setPlayer h ref pl) q).player_id =
            (getPlayer h q).player_id :=
          fun q => getPlayer_set_field Player.player_id (by rw [hdm.2.2.2.1]) q
        cases r with
        | some e => exact ⟨rfl, rfl, rfl, rfl, rfl, rfl, rfl, setPlayer_length .., hset⟩
        | none =>
          have hrec := ih { g with coal_market_last_filled := min (g.coal_market_last_filled + 1) (coal_market_cost.length - 1) } (setPlayer h ref pl) ref (acc ++ [kind])
          refine ⟨hrec.1, hrec.2.1, hrec.2.2.1, hrec.2.2.2.1, hrec.2.2.2.2.1,
            hrec.2.2.2.2.2.1, hrec.2.2.2.2.2.2.1, ?_, ?_⟩
          · rw [hrec.2.2.2.2.2.2.2.1, setPlayer_length]
          · intro q
            rw [hrec.2.2.2.2.2.2.2.2 q, hset q]
      · rw [if_neg hk]
        by_cases hk2 : kind = sIron
        · rw [if_pos hk2]
          dsimp only
          have hdm := delta_money_fields (getPlayer h ref)
            (-1 * iron_market_cost.getD g.iron_market_last_filled 0)
          rcases hd : (getPlayer h ref).delta_money
              (-1 * iron_market_cost.getD g.iron_market_last_filled 0) with ⟨pl, r⟩
          rw [hd] at hdm
          dsimp only at hdm
          have hset : ∀ q, (getPlayer (setPlayer h ref pl) q).player_id =
              (getPlayer h q).player_id :=
            fun q => getPlayer_set_field Player.player_id (by rw [hdm.2.2.2.1]) q
          cases r with
          | some e => exact ⟨rfl, rfl, rfl, rfl, rfl, rfl, rfl, setPlayer_length .., hset⟩
          | none =>
            have hrec := ih { g with iron_market_last_filled := min (g.iron_market_last_filled + 1) (iron_market_cost.length - 1) } (setPlayer h ref pl) ref (acc ++ [kind])
            refine ⟨hrec.1, hrec.2.1, hrec.2.2.1, hrec.2.2.2.1, hrec.2.2.2.2.1,
              hrec.2.2.2.2.2.1, hrec.2.2.2.2.2.2.1, ?_, ?_⟩
            · rw [hrec.2.2.2.2.2.2.2.1, setPlayer_length]
            · intro q
              rw [hrec.2.2.2.2.2.2.2.2 q, hset q]
        · rw [if_neg hk2]
          exact ⟨rfl, rfl, rfl, rfl, rfl, rfl, rfl, rfl, fun q => rfl⟩
    · dsimp only
      have hbf := boardSpend_frame hb
      cases r2 with
      | some e => exact ⟨rfl, rfl, rfl, rfl, rfl, rfl, rfl, hbf.1, hbf.2⟩
      | none =>
        have hrec := ih { g with played_industries := inds' } h2 ref (acc ++ [kind])
        refine ⟨hrec.1, hrec.2.1, hrec.2.2.1, hrec.2.2.2.1, hrec.2.2.2.2.1,
          hrec.2.2.2.2.2.1, hrec.2.2.2.2.2.2.1, ?_, ?_⟩
        · rw [hrec.2.2.2.2.2.2.2.1, hbf.1]
        · intro q
          rw [hrec.2.2.2.2.2.2.2.2 q, hbf.2 q]

/-- Frame of the full ledger call. -/
theorem spend_resources_frame (g : GameState) (h : Heap) (loc : Str)
    (locs req : List Str) (ref : Nat) :
    (spend_resources g h loc locs req ref).1.playerRefs = g.playerRefs ∧
    (spend_resources g h loc locs req ref).1.played_links = g.played_links ∧
    (spend_resources g h loc locs req ref).1.age = g.age ∧
    (spend_resources g h loc locs req ref).1.round = g.round ∧
    (spend_resources g h loc locs req ref).1.card_play = g.card_play ∧
    (spend_resources g h loc locs req ref).1.active_player_index = g.active_player_index ∧
    (spend_resources g h loc locs req ref).1.active_player_card = g.active_player_card ∧
    (spend_resources g h loc locs req ref).2.1.length = h.length ∧
    ∀ q, (getPlayer (spend_resources g h loc locs req ref).2.1 q).player_id =
      (getPlayer h q).player_id := by
  unfold spend_resources
  rcases hu : spendUnits g h ref locs [] with ⟨g2, h2, spent2, r2⟩
  have hf := spendUnits_frame locs g h ref []
  rw [hu] at hf
  dsimp only at hf
  cases r2 with
  | some e => exact hf
  | none =>
    dsimp only
    split
    · exact hf
    · exact hf

/-!  ### C8 (amended): network command costs. -/

/-- Claim C8 (amended, proved): the argument-group count of a network
command is validated only in the rail era.  In the canal era any count is
accepted: the command succeeds exactly when the flat 3-currency fee is
payable, consumes no resources, and appends the opaque link marker.  In the
rail era a count other than 1 or 2 fails; a successful single-link play
consumes exactly one coal and at least the flat 5-currency fee; a
successful double-link play consumes exactly one coal plus one coal-beer
pair and at least the flat 15-currency fee; both append the link marker. -/
theorem c8_amended_network_costs (g : GameState) (h : Heap) (ref : Nat) (args : List ActionArg)
    (href : ref < h.length) :
    (g.age = sCanal →
      ((networkBranch g h ref args).2.2.2 = none ↔ 3 ≤ (getPlayer h ref).money) ∧
      ((networkBranch g h ref args).2.2.2 = none →
        (getPlayer (networkBranch g h ref args).2.1 ref).money = (getPlayer h ref).money - 3 ∧
        (networkBranch g h ref args).1.played_links = g.played_links ++ [sUnknown] ∧
        (networkBranch g h ref args).2.2.1 = [])) ∧
    (g.age = sRail →
      (args.length ≠ 1 → args.length ≠ 2 →
        ((networkBranch g h ref args).2.2.2).isSome = true) ∧
      (args.length = 1 → (networkBranch g h ref args).2.2.2 = none →
        ((networkBranch g h ref args).2.2.1 : Multiset Str) = ([sCoal] : Multiset Str) ∧
        (getPlayer (networkBranch g h ref args).2.1 ref).money ≤
          (getPlayer h ref).money - 5 ∧
        (networkBranch g h ref args).1.played_links = g.played_links ++ [sUnknown]) ∧
      (args.length = 2 → (networkBranch g h ref args).2.2.2 = none →
        ((networkBranch g h ref args).2.2.1 : Multiset Str)
          = ([sCoal, sCoal, sBeer] : Multiset Str) ∧
        (getPlayer (networkBranch g h ref args).2.1 ref).money ≤
          (getPlayer h ref).money - 15 ∧
        (networkBranch g h ref args).1.played_links = g.played_links ++ [sUnknown])) := by
  constructor
  · intro hc
    have hnr : ¬g.age = sRail := by rw [hc]; decide
    unfold networkBranch
    rw [if_pos hc]
    have hdm := delta_money_fields (getPlayer h ref) (-3)
    rcases hd : (getPlayer h ref).delta_money (-3) with ⟨pl, r⟩
    rw [hd] at hdm
    dsimp only at hdm
    cases r with
    | some e =>
      dsimp only
      have hfail : ¬(0 ≤ (getPlayer h ref).money + -3) := by
        intro hge
        exact Option.noConfusion (hdm.2.2.2.2.2.mpr hge)
      exact ⟨⟨fun hx => Option.noConfusion hx, fun h3 => absurd (by omega) hfail⟩,
        fun hx => Option.noConfusion hx⟩
    | none =>
      dsimp only
      rw [if_neg hnr]
      dsimp only
      have hmon : 0 ≤ (getPlayer h ref).money + -3 := hdm.2.2.2.2.2.mp rfl
      refine ⟨⟨fun _ => by omega, fun _ => rfl⟩, fun _ => ⟨?_, rfl, rfl⟩⟩
      rw [getPlayer_set_self pl href, hdm.1]
      omega
  · intro hrail
    have hnc : ¬g.age = sCanal := by rw [hrail]; decide
    unfold networkBranch
    rw [if_neg hnc]
    dsimp only
    rw [if_pos hrail]
    unfold networkRailStep
    by_cases ha1 : args.length = 1
    · rw [if_pos ha1]
      have hdm := delta_money_fields (getPlayer h ref) (-5)
      rcases hd : (getPlayer h ref).delta_money (-5) with ⟨pl, r⟩
      rw [hd] at hdm
      dsimp only at hdm
      cases r with
      | some e =>
        dsimp only
        exact ⟨fun hx1 => absurd ha1 hx1, fun _ hx => Option.noConfusion hx,
          fun ha2 => absurd ha2 (by omega)⟩
      | none =>
        dsimp only
        rcases hsp : spend_resources g (setPlayer h ref pl) sUnknown [sCoal] [sCoal] ref
          with ⟨g3, h3, spent, r3⟩
        dsimp only
        refine ⟨fun hx1 => absurd ha1 hx1, fun _ hsucc => ?_, fun ha2 => absurd ha2 (by omega)⟩
        cases r3 with
        | some e => exact absurd hsucc (by simp)
        | none =>
          dsimp only at hsucc ⊢
          have hperm := @spend_resources_success_perm g (setPlayer h ref pl) sUnknown
            [sCoal] [sCoal] ref (by rw [hsp])
          rw [hsp] at hperm
          dsimp only at hperm
          have hmono := spend_resources_money_mono g (setPlayer h ref pl) sUnknown
            [sCoal] [sCoal] ref ref
          rw [hsp] at hmono
          dsimp only at hmono
          have hframe := spend_resources_frame g (setPlayer h ref pl) sUnknown
            [sCoal] [sCoal] ref
          rw [hsp] at hframe
          dsimp only at hframe
          refine ⟨by simpa using Multiset.coe_eq_coe.mpr hperm, ?_, by rw [hframe.2.1]⟩
          calc (getPlayer h3 ref).money
              ≤ (getPlayer (setPlayer h ref pl) ref).money := hmono
            _ = (getPlayer h ref).money - 5 := by
                rw [getPlayer_set_self pl href, hdm.1]
                omega
    · rw [if_neg ha1]
      by_cases ha2 : args.length = 2
      · rw [if_pos ha2]
        have hdm := delta_money_fields (getPlayer h ref) (-15)
        rcases hd : (getPlayer h ref).delta_money (-15) with ⟨pl, r⟩
        rw [hd] at hdm
        dsimp only at hdm
        cases r with
        | some e =>
          dsimp only
          exact ⟨fun _ hx2 => absurd ha2 hx2, fun hx1 => absurd hx1 ha1,
            fun _ hx => Option.noConfusion hx⟩
        | none =>
          dsimp only
          rcases hsp : spend_resources g (setPlayer h ref pl) sUnknown [sCoal] [sCoal] ref
            with ⟨g3, h3, spent, r3⟩
          cases r3 with
          | some e =>
            exact ⟨fun _ hx2 => absurd ha2 hx2, fun hx1 => absurd hx1 ha1,
              fun _ hx => Option.noConfusion hx⟩
          | none =>
            dsimp only
            rcases hsp2 : spend_resources g3 h3 sUnknown [sCoal, sBeer] [sCoal, sBeer] ref
              with ⟨g4, h4, spent2, r4⟩
            refine ⟨fun _ hx2 => absurd ha2 hx2, fun hx1 => absurd hx1 ha1,
              fun _ hsucc => ?_⟩
            cases r4 with
            | some e => exact absurd hsucc (by simp)
            | none =>
              dsimp only at hsucc ⊢
              have hperm1 := @spend_resources_success_perm g (setPlayer h ref pl) sUnknown
                [sCoal] [sCoal] ref (by rw [hsp])
              rw [hsp] at hperm1
              dsimp only at hperm1
              have hperm2 := @spend_resources_success_perm g3 h3 sUnknown
                [sCoal, sBeer] [sCoal, sBeer] ref (by rw [hsp2])
              rw [hsp2] at hperm2
              dsimp only at hperm2
              have hmono1 := spend_resources_money_mono g (setPlayer h ref pl) sUnknown
                [sCoal] [sCoal] ref ref
              rw [hsp] at hmono1
              dsimp only at hmono1
              have hmono2 := spend_resources_money_mono g3 h3 sUnknown
                [sCoal, sBeer] [sCoal, sBeer] ref ref
              rw [hsp2] at hmono2
              dsimp only at hmono2
              have hframe1 := spend_resources_frame g (setPlayer h ref pl) sUnknown
                [sCoal] [sCoal] ref
              rw [hsp] at hframe1
              dsimp only at hframe1
              have hframe2 := spend_resources_frame g3 h3 sUnknown
                [sCoal, sBeer] [sCoal, sBeer] ref
              rw [hsp2] at hframe2
              dsimp only at hframe2
              refine ⟨?_, ?_, ?_⟩
              · have hcat : (spent ++ spent2).Perm [sCoal, sCoal, sBeer] :=
                  List.Perm.append hperm1 hperm2
                simpa using Multiset.coe_eq_coe.mpr hcat
              · calc (getPlayer h4 ref).money
                    ≤ (getPlayer h3 ref).money := hmono2
                  _ ≤ (getPlayer (setPlayer h ref pl) ref).money := hmono1
                  _ = (getPlayer h ref).money - 15 := by
                      rw [getPlayer_set_self pl href, hdm.1]
                      omega
              · rw [hframe2.2.1, hframe1.2.1]
      · rw [if_neg ha2]
        dsimp only
        exact ⟨fun _ _ => rfl, fun hx1 => absurd hx1 ha1, fun hx2 => absurd hx2 ha2⟩

/-- Claim C8 witness: the amended theorem at the fresh canal-era game with
an empty argument list — the network command succeeds at the flat fee and
appends the link marker. -/
theorem c8_witness :
    (networkBranch initGame initHeap 0 []).2.2.2 = none ∧
    (getPlayer (networkBranch initGame initHeap 0 []).2.1 0).money =
      (getPlayer initHeap 0).money - 3 ∧
    (networkBranch initGame initHeap 0 []).1.played_links =
      initGame.played_links ++ [sUnknown] := by
  have hca := (c8_amended_network_costs initGame initHeap 0 [] (by decide)).1 rfl
  have hsucc : (networkBranch initGame initHeap 0 []).2.2.2 = none :=
    hca.1.mpr (by decide)
  exact ⟨hsucc, (hca.2 hsucc).1, (hca.2 hsucc).2.1⟩

/-!  ### C9: string-utility lemmas for the grammar round trip. -/

/-- Separator characters of the command grammar. -/
def sepChars : List Char := [':', '.', ';', '<', '>', ',']

/-- Predicate "token free of every grammar separator". -/
def goodTok (s : Str) : Prop := ∀ x ∈ s, x ∉ sepChars

instance (s : Str) : Decidable (goodTok s) := by
  unfold goodTok
  infer_instance

/-- Separator-free tokens do not contain any given separator. -/
theorem good_not_mem {t : Str} {c : Char} (hg : goodTok t) (hc : c ∈ sepChars) : c ∉ t :=
  fun hm => hg c hm hc

/-- Splitting never yields an empty list of segments. -/
theorem pySplit_ne_nil (c : Char) (s : Str) : pySplit c s ≠ [] := by
  cases s with
  | nil => simp [pySplit]
  | cons x xs =>
    unfold pySplit
    rcases hp : pySplit c xs with - | ⟨h1, t1⟩
    · simp
    · dsimp only
      split <;> simp

/-- Splitting a separator-free string yields the single segment. -/
theorem pySplit_not_mem {c : Char} : ∀ {s : Str}, c ∉ s → pySplit c s = [s] := by
  intro s
  induction s with
  | nil => intro _; rfl
  | cons x xs ih =>
    intro hc
    have hx : x ≠ c := fun he => hc (he ▸ List.mem_cons_self x xs)
    have hxs : c ∉ xs := fun hm => hc (List.mem_cons_of_mem x hm)
    unfold pySplit
    rw [ih hxs]
    simp [hx]

/-- Splitting an occurrence after a separator-free prefix peels the
prefix. -/
theorem pySplit_append {c : Char} : ∀ {a : Str} (b : Str), c ∉ a →
    pySplit c (a ++ c :: b) = a :: pySplit c b := by
  intro a
  induction a with
  | nil =>
    intro b _
    rcases hp : pySplit c b with - | ⟨h1, t1⟩
    · exact absurd hp (pySplit_ne_nil c b)
    · simp [pySplit, hp]
  | cons x xs ih =>
    intro b hc
    have hx : x ≠ c := fun he => hc (he ▸ List.mem_cons_self x xs)
    have hxs : c ∉ xs := fun hm => hc (List.mem_cons_of_mem x hm)
    have hrec := ih b hxs
    show pySplit c (x :: (xs ++ c :: b)) = (x :: xs) :: pySplit c b
    unfold pySplit
    rw [hrec]
    simp only [if_neg hx]
    congr 1
    cases b <;> rfl

/-- Characters of a joined list come from the separator or a segment. -/
theorem mem_pyJoin {c : Char} {x : Char} : ∀ {L : List Str}, x ∈ pyJoin c L →
    x = c ∨ ∃ s ∈ L, x ∈ s := by
  intro L
  induction L with
  | nil => intro hm; simp [pyJoin] at hm
  | cons s rest ih =>
    intro hm
    cases rest with
    | nil =>
      simp only [pyJoin] at hm
      exact Or.inr ⟨s, List.mem_cons_self s [], hm⟩
    | cons s2 rest2 =>
      simp only [pyJoin] at hm
      rcases List.mem_append.mp hm with hm | hm
      · exact Or.inr ⟨s, List.mem_cons_self s _, hm⟩
      · rcases List.mem_cons.mp hm with hm | hm
        · exact Or.inl hm
        · rcases ih hm with hm | ⟨t, ht, hx⟩
          · exact Or.inl hm
          · exact Or.inr ⟨t, List.mem_cons_of_mem s ht, hx⟩

/-- Splitting is the left inverse of joining for a nonempty list of
separator-free segments. -/
theorem pySplit_pyJoin {c : Char} : ∀ {L : List Str}, L ≠ [] → (∀ s ∈ L, c ∉ s) →
    pySplit c (pyJoin c L) = L := by
  intro L
  induction L with
  | nil => intro hne _; exact absurd rfl hne
  | cons s rest ih =>
    intro _ hfree
    cases rest with
    | nil =>
      show pySplit c (pyJoin c [s]) = [s]
      simp only [pyJoin]
      exact pySplit_not_mem (hfree s (List.mem_cons_self s []))
    | cons s2 rest2 =>
      show pySplit c (s ++ c :: pyJoin c (s2 :: rest2)) = s :: s2 :: rest2
      rw [pySplit_append _ (hfree s (List.mem_cons_self s _))]
      rw [ih (by simp) fun t ht => hfree t (List.mem_cons_of_mem s ht)]

/-- Digit characters. -/
def digitChars : List Char := ['0', '1', '2', '3', '4', '5', '6', '7', '8', '9']

/-- Every produced digit character is one of the ten digits. -/
theorem decDigit_mem (m : Nat) : decDigit m ∈ digitChars := by
  unfold decDigit
  split <;> decide

/-- Digit round trip below ten. -/
theorem decVal_decDigit {m : Nat} (hm : m < 10) : decVal (decDigit m) = some m := by
  interval_cases m <;> rfl

/-- Digit parsing distributes over append. -/
theorem parseDecAux_append (acc : Nat) (xs ys : List Char) :
    parseDecAux acc (xs ++ ys) =
      match parseDecAux acc xs with
      | some a => parseDecAux a ys
      | none => none := by
  induction xs generalizing acc with
  | nil => rfl
  | cons x xs ih =>
    show parseDecAux acc (x :: (xs ++ ys)) = _
    rcases hv : decVal x with - | d
    · simp only [parseDecAux, hv]
    · simp only [parseDecAux, hv]
      exact ih (acc * 10 + d)

/-- Parsing the reversed digit expansion recovers the value under any
accumulator. -/
theorem parseDecAux_natToCharsAux : ∀ (n acc : Nat),
    parseDecAux acc (natToCharsAux n).reverse =
      some (acc * 10 ^ (natToCharsAux n).length + n) := by
  intro n
  induction n using Nat.strong_induction_on with
  | _ n ih =>
    intro acc
    match n with
    | 0 => simp [natToCharsAux, parseDecAux]
    | m + 1 =>
      rw [natToCharsAux]
      have hq : (m + 1) / 10 < m + 1 := Nat.div_lt_self (Nat.succ_pos m) (by omega)
      have hrec := ih ((m + 1) / 10) hq acc
      show parseDecAux acc ((decDigit ((m + 1) % 10) :: natToCharsAux ((m + 1) / 10)).reverse)
        = _
      rw [List.reverse_cons, parseDecAux_append, hrec]
      have hd : decVal (decDigit ((m + 1) % 10)) = some ((m + 1) % 10) :=
        decVal_decDigit (Nat.mod_lt _ (by omega))
      show parseDecAux (acc * 10 ^ (natToCharsAux ((m + 1) / 10)).length + (m + 1) / 10)
          [decDigit ((m + 1) % 10)] = _
      unfold parseDecAux
      rw [hd]
      unfold parseDecAux
      congr 1
      simp only [List.length_cons, List.length_reverse]
      have hmod := Nat.div_add_mod (m + 1) 10
      ring_nf
      omega

/-- Python `int` is a left inverse of the canonical decimal printing. -/
theorem parseDec_natToChars (n : Nat) : parseDec (natToChars n) = some n := by
  by_cases hn : n = 0
  · subst hn
    rfl
  · unfold natToChars
    rw [if_neg hn]
    unfold parseDec
    have hne : (natToCharsAux n).reverse ≠ [] := by
      match n, hn with
      | m + 1, _ => simp [natToCharsAux]
    rw [if_neg hne]
    have := parseDecAux_natToCharsAux n 0
    rw [this]
    simp

/-- Decimal digits carry no grammar separator. -/
theorem natToChars_good (n : Nat) : goodTok (natToChars n) := by
  intro x hx hsep
  by_cases hn : n = 0
  · subst hn
    simp [natToChars] at hx
    subst hx
    simp [sepChars] at hsep
  · unfold natToChars at hx
    rw [if_neg hn] at hx
    rw [List.mem_reverse] at hx
    have hdig : x ∈ digitChars := by
      clear hsep hn
      induction n using Nat.strong_induction_on with
      | _ n ih =>
        match n with
        | 0 => simp [natToCharsAux] at hx
        | m + 1 =>
          rw [natToCharsAux] at hx
          rcases List.mem_cons.mp hx with hx | hx
          · exact hx ▸ decDigit_mem _
          · exact ih ((m + 1) / 10) (Nat.div_lt_self (Nat.succ_pos m) (by omega)) hx
    fin_cases hdig <;> simp [sepChars] at hsep

/-- Well-formedness of one typed argument for a given action kind: the
constructor matches the kind and every token is free of grammar
separators (a develop tile name is also nonempty, so that its encoded
argument is not skipped as an empty segment).  Scout arguments are outside
the five implemented kinds. -/
def goodArg (main : Str) : ActionArg → Prop
  | .build t l rs => main = sBuild ∧ goodTok t ∧ goodTok l ∧ ∀ r ∈ rs, goodTok r
  | .network f t rs => main = sNetwork ∧ goodTok f ∧ goodTok t ∧ ∀ r ∈ rs, goodTok r
  | .develop t rs => main = sDevelop ∧ goodTok t ∧ t ≠ [] ∧ ∀ r ∈ rs, goodTok r
  | .sell t l rs => main = sSell ∧ goodTok t ∧ goodTok l ∧ ∀ r ∈ rs, goodTok r
  | .scout _ => False

instance (main : Str) (arg : ActionArg) : Decidable (goodArg main arg) := by
  cases arg <;> unfold goodArg <;> infer_instance

/-- Representable structured command of the five implemented kinds: the
kind is build, network, develop, sell or loan; the card token is
separator-free; a loan carries no arguments; every argument is well-formed
for the kind. -/
def Representable (a : Action) : Prop :=
  (a.main_action = sBuild ∨ a.main_action = sNetwork ∨ a.main_action = sDevelop ∨
    a.main_action = sSell ∨ a.main_action = sLoan) ∧
  goodTok a.used_card ∧
  (a.main_action = sLoan → a.arguments = []) ∧
  ∀ arg ∈ a.arguments, goodArg a.main_action arg

instance (a : Action) : Decidable (Representable a) := by
  unfold Representable
  infer_instance

/-- Well-formed command text: the canonical encoding of some representable
command.  This is the spec-side reading of "well-formed command string"
in the round-trip property. -/
def wellFormedActionString (s : Str) : Prop :=
  ∃ a : Action, Representable a ∧ a.encode = s

/-- Characters of an encoded resource suffix. -/
theorem makeResourceString_chars {rs : List Str} (hrs : ∀ r ∈ rs, goodTok r) :
    ∀ x ∈ makeResourceString rs, x = '<' ∨ x = '>' ∨ x = ',' ∨ x ∉ sepChars := by
  intro x hx
  cases rs with
  | nil => simp [makeResourceString] at hx
  | cons r0 rs' =>
    simp only [makeResourceString] at hx
    rcases List.mem_cons.mp hx with hx | hx
    · exact Or.inl hx
    · rcases List.mem_append.mp hx with hx | hx
      · rcases mem_pyJoin hx with hx | ⟨s, hs, hxs⟩
        · exact Or.inr (Or.inr (Or.inl hx))
        · exact Or.inr (Or.inr (Or.inr (hrs s hs x hxs)))
      · rcases List.mem_singleton.mp hx with hx
        exact Or.inr (Or.inl hx)

/-- Characters of an encoded argument: the four in-argument separators or a
token character. -/
theorem argumentString_chars {main : Str} {arg : ActionArg} (hg : goodArg main arg) :
    ∀ x ∈ arg.argumentString, x = '.' ∨ x = '<' ∨ x = '>' ∨ x = ',' ∨ x ∉ sepChars := by
  cases arg with
  | build t l rs =>
    obtain ⟨-, ht, hl, hrs⟩ := hg
    intro x hx
    simp only [ActionArg.argumentString] at hx
    rcases List.mem_append.mp hx with hx | hx
    · rcases List.mem_append.mp hx with hx | hx
      · exact Or.inr (Or.inr (Or.inr (Or.inr (ht x hx))))
      · rcases List.mem_cons.mp hx with hx | hx
        · exact Or.inl hx
        · exact Or.inr (Or.inr (Or.inr (Or.inr (hl x hx))))
    · rcases makeResourceString_chars hrs x hx with h | h | h | h
      · exact Or.inr (Or.inl h)
      · exact Or.inr (Or.inr (Or.inl h))
      · exact Or.inr (Or.inr (Or.inr (Or.inl h)))
      · exact Or.inr (Or.inr (Or.inr (Or.inr h)))
  | network f t rs =>
    obtain ⟨-, ht, hl, hrs⟩ := hg
    intro x hx
    simp only [ActionArg.argumentString] at hx
    rcases List.mem_append.mp hx with hx | hx
    · rcases List.mem_append.mp hx with hx | hx
      · exact Or.inr (Or.inr (Or.inr (Or.inr (ht x hx))))
      · rcases List.mem_cons.mp hx with hx | hx
        · exact Or.inl hx
        · exact Or.inr (Or.inr (Or.inr (Or.inr (hl x hx))))
    · rcases makeResourceString_chars hrs x hx with h | h | h | h
      · exact Or.inr (Or.inl h)
      · exact Or.inr (Or.inr (Or.inl h))
      · exact Or.inr (Or.inr (Or.inr (Or.inl h)))
      · exact Or.inr (Or.inr (Or.inr (Or.inr h)))
  | develop t rs =>
    obtain ⟨-, ht, -, hrs⟩ := hg
    intro x hx
    simp only [ActionArg.argumentString] at hx
    rcases List.mem_append.mp hx with hx | hx
    · exact Or.inr (Or.inr (Or.inr (Or.inr (ht x hx))))
    · rcases makeResourceString_chars hrs x hx with h | h | h | h
      · exact Or.inr (Or.inl h)
      · exact Or.inr (Or.inr (Or.inl h))
      · exact Or.inr (Or.inr (Or.inr (Or.inl h)))
      · exact Or.inr (Or.inr (Or.inr (Or.inr h)))
  | sell t l rs =>
    obtain ⟨-, ht, hl, hrs⟩ := hg
    intro x hx
    simp only [ActionArg.argumentString] at hx
    rcases List.mem_append.mp hx with hx | hx
    · rcases List.mem_append.mp hx with hx | hx
      · exact Or.inr (Or.inr (Or.inr (Or.inr (ht x hx))))
      · rcases List.mem_cons.mp hx with hx | hx
        · exact Or.inl hx
        · exact Or.inr (Or.inr (Or.inr (Or.inr (hl x hx))))
    · rcases makeResourceString_chars hrs x hx with h | h | h | h
      · exact Or.inr (Or.inl h)
      · exact Or.inr (Or.inr (Or.inl h))
      · exact Or.inr (Or.inr (Or.inr (Or.inl h)))
      · exact Or.inr (Or.inr (Or.inr (Or.inr h)))
  | scout c => exact absurd hg id

/-- The colon and semicolon never occur inside an encoded argument. -/
theorem argumentString_no_outer_seps {main : Str} {arg : ActionArg} (hg : goodArg main arg) :
    ':' ∉ arg.argumentString ∧ ';' ∉ arg.argumentString := by
  constructor
  · intro hm
    rcases argumentString_chars hg ':' hm with h | h | h | h | h
    · exact absurd h (by decide)
    · exact absurd h (by decide)
    · exact absurd h (by decide)
    · exact absurd h (by decide)
    · exact h (by decide)
  · intro hm
    rcases argumentString_chars hg ';' hm with h | h | h | h | h
    · exact absurd h (by decide)
    · exact absurd h (by decide)
    · exact absurd h (by decide)
    · exact absurd h (by decide)
    · exact h (by decide)

/-- A separator absent from the join character and from every segment is
absent from the join. -/
theorem not_mem_pyJoin {c cj : Char} (hcj : c ≠ cj) {L : List Str}
    (hL : ∀ p ∈ L, c ∉ p) : c ∉ pyJoin cj L := by
  intro hm
  rcases mem_pyJoin hm with hm | ⟨s, hs, hx⟩
  · exact hcj hm
  · exact hL s hs hx

/-- A separator other than the dot never occurs in a dotted token pair. -/
theorem not_mem_left_pair {t l : Str} {c : Char} (hc : c ∈ sepChars) (hcd : c ≠ '.')
    (ht : goodTok t) (hl : goodTok l) : c ∉ t ++ '.' :: l := by
  intro hm
  rcases List.mem_append.mp hm with hm | hm
  · exact good_not_mem ht hc hm
  · rcases List.mem_cons.mp hm with hm | hm
    · exact hcd hm
    · exact good_not_mem hl hc hm

/-- Splitting a dotted token pair on the dot. -/
theorem parse_left_pair {t l : Str} (ht : goodTok t) (hl : goodTok l) :
    pySplit '.' (t ++ '.' :: l) = [t, l] := by
  rw [pySplit_append l (good_not_mem ht (by decide))]
  rw [pySplit_not_mem (good_not_mem hl (by decide))]

/-- The resource-suffix decoding step of `parse_action_argment_string`
recovers the argument-left part and the resource list. -/
theorem parse_parts {left : Str} {rs : List Str} (h1 : '<' ∉ left) (h2 : '>' ∉ left)
    (hrs : ∀ r ∈ rs, goodTok r) :
    (if '<' ∈ (left ++ makeResourceString rs) then
      match pySplit '<' ((left ++ makeResourceString rs).filter (fun c => c ≠ '>')) with
      | [l, r] => some (l, pySplit ',' r)
      | _ => none
    else some ((left ++ makeResourceString rs), ([] : List Str))) = some (left, rs) := by
  cases rs with
  | nil =>
    simp only [makeResourceString, List.append_nil]
    rw [if_neg h1]
  | cons r0 rs' =>
    have hJ : ∀ c, c ∈ sepChars → c ≠ ',' → c ∉ pyJoin ',' (r0 :: rs') := by
      intro c hc hcc
      exact not_mem_pyJoin hcc fun p hp => good_not_mem (hrs p hp) hc
    have hm : '<' ∈ left ++ makeResourceString (r0 :: rs') := by
      simp [makeResourceString]
    rw [if_pos hm]
    have hfil : (left ++ makeResourceString (r0 :: rs')).filter (fun c => c ≠ '>') =
        left ++ '<' :: pyJoin ',' (r0 :: rs') := by
      rw [List.filter_append]
      have hfl : left.filter (fun c => c ≠ '>') = left :=
        List.filter_eq_self.mpr fun a ha => by
          simp only [ne_eq, decide_not, Bool.not_eq_eq_eq_not, Bool.not_true, decide_eq_false_iff_not]
          exact fun he => h2 (he ▸ ha)
      rw [hfl]
      simp only [makeResourceString]
      rw [List.filter_append]
      have hfj : (('<' :: pyJoin ',' (r0 :: rs')).filter (fun c => c ≠ '>')) =
          '<' :: pyJoin ',' (r0 :: rs') :=
        List.filter_eq_self.mpr fun a ha => by
          simp only [ne_eq, decide_not, Bool.not_eq_eq_eq_not, Bool.not_true, decide_eq_false_iff_not]
          rcases List.mem_cons.mp ha with ha | ha
          · subst ha
            decide
          · exact fun he => hJ '>' (by decide) (by decide) (he ▸ ha)
      rw [hfj]
      simp
    rw [hfil]
    rw [pySplit_append _ h1]
    rw [pySplit_not_mem (hJ '<' (by decide) (by decide))]
    dsimp only
    rw [pySplit_pyJoin (by simp) fun p hp => good_not_mem (hrs p hp) (by decide)]

/-- Decoding an encoded argument recovers the argument
(`parse_action_argment_string` after the subclass initializers). -/
theorem parse_argumentString {main : Str} {arg : ActionArg} (hg : goodArg main arg) :
    parseActionArgumentString arg.argumentString main = some arg := by
  cases arg with
  | build t l rs =>
    obtain ⟨hmain, ht, hl, hrs⟩ := hg
    have h1 : '<' ∉ t ++ '.' :: l := not_mem_left_pair (by decide) (by decide) ht hl
    have h2 : '>' ∉ t ++ '.' :: l := not_mem_left_pair (by decide) (by decide) ht hl
    show parseActionArgumentString ((t ++ '.' :: l) ++ makeResourceString rs) main = _
    unfold parseActionArgumentString
    rw [parse_parts h1 h2 hrs]
    dsimp only
    rw [if_pos hmain, parse_left_pair ht hl]
  | network f t rs =>
    obtain ⟨hmain, hf, ht, hrs⟩ := hg
    have h1 : '<' ∉ f ++ '.' :: t := not_mem_left_pair (by decide) (by decide) hf ht
    have h2 : '>' ∉ f ++ '.' :: t := not_mem_left_pair (by decide) (by decide) hf ht
    show parseActionArgumentString ((f ++ '.' :: t) ++ makeResourceString rs) main = _
    unfold parseActionArgumentString
    rw [parse_parts h1 h2 hrs]
    dsimp only
    rw [if_neg (by rw [hmain]; decide), if_pos hmain, parse_left_pair hf ht]
  | develop t rs =>
    obtain ⟨hmain, ht, -, hrs⟩ := hg
    have h1 : '<' ∉ t := good_not_mem ht (by decide)
    have h2 : '>' ∉ t := good_not_mem ht (by decide)
    show parseActionArgumentString (t ++ makeResourceString rs) main = _
    unfold parseActionArgumentString
    rw [parse_parts h1 h2 hrs]
    dsimp only
    rw [if_neg (by rw [hmain]; decide), if_neg (by rw [hmain]; decide), if_pos hmain]
  | sell t l rs =>
    obtain ⟨hmain, ht, hl, hrs⟩ := hg
    have h1 : '<' ∉ t ++ '.' :: l := not_mem_left_pair (by decide) (by decide) ht hl
    have h2 : '>' ∉ t ++ '.' :: l := not_mem_left_pair (by decide) (by decide) ht hl
    show parseActionArgumentString ((t ++ '.' :: l) ++ makeResourceString rs) main = _
    unfold parseActionArgumentString
    rw [parse_parts h1 h2 hrs]
    dsimp only
    rw [if_neg (by rw [hmain]; decide), if_neg (by rw [hmain]; decide),
      if_neg (by rw [hmain]; decide), if_pos hmain, parse_left_pair ht hl]
  | scout c => exact absurd hg id

/-- Encoded arguments are never the empty segment. -/
theorem argumentString_ne_nil {main : Str} {arg : ActionArg} (hg : goodArg main arg) :
    arg.argumentString ≠ [] := by
  cases arg with
  | build t l rs => simp [ActionArg.argumentString]
  | network f t rs => simp [ActionArg.argumentString]
  | develop t rs =>
    obtain ⟨-, -, htne, -⟩ := hg
    simp [ActionArg.argumentString, htne]
  | sell t l rs => simp [ActionArg.argumentString]
  | scout c => exact absurd hg id

/-- Decoding a list of encoded arguments recovers the list. -/
theorem parseArgs_map {main : Str} : ∀ {largs : List ActionArg},
    (∀ arg ∈ largs, goodArg main arg) →
    parseArgs main (largs.map ActionArg.argumentString) = some largs := by
  intro largs
  induction largs with
  | nil => intro _; rfl
  | cons a rest ih =>
    intro hall
    have hga := hall a (List.mem_cons_self a rest)
    show parseArgs main (a.argumentString :: rest.map ActionArg.argumentString) = _
    unfold parseArgs
    rw [if_neg (argumentString_ne_nil hga), parse_argumentString hga,
      ih fun x hx => hall x (List.mem_cons_of_mem a hx)]

/-- Claim C9 (confirmed): for every representable structured command of the
five implemented kinds, decoding the encoded text recovers the command
exactly — including the order of the resource lists inside each argument,
which the embedding keeps as given — and decoding any well-formed command
string then re-encoding reproduces the exact original string. -/
theorem c9_encode_decode_roundtrip :
    (∀ a : Action, Representable a → parseActionString a.encode = some a) ∧
    (∀ s : Str, wellFormedActionString s →
      ∃ a : Action, parseActionString s = some a ∧ a.encode = s) := by
  have hmain : ∀ a : Action, Representable a → parseActionString a.encode = some a := by
    intro a hrep
    obtain ⟨hkind, hcard, hloan, hargs⟩ := hrep
    have hmainTok : goodTok a.main_action := by
      rcases hkind with h | h | h | h | h <;> rw [h] <;> decide
    have hsemiFree : ∀ p ∈ a.arguments.map ActionArg.argumentString, ';' ∉ p := by
      intro p hp
      obtain ⟨arg, harg, rfl⟩ := List.mem_map.mp hp
      exact (argumentString_no_outer_seps (hargs arg harg)).2
    have hcolonR : ':' ∉ pyJoin ';' (a.arguments.map ActionArg.argumentString) := by
      refine not_mem_pyJoin (by decide) ?_
      intro p hp
      obtain ⟨arg, harg, rfl⟩ := List.mem_map.mp hp
      exact (argumentString_no_outer_seps (hargs arg harg)).1
    have hcl : ':' ∉ (((natToChars a.card_play ++ '.' :: natToChars a.player_id) ++
        '.' :: a.main_action) ++ '.' :: a.used_card) := by
      intro hm
      rcases List.mem_append.mp hm with hm | hm
      · rcases List.mem_append.mp hm with hm | hm
        · rcases List.mem_append.mp hm with hm | hm
          · exact good_not_mem (natToChars_good _) (by decide) hm
          · rcases List.mem_cons.mp hm with hm | hm
            · exact absurd hm (by decide)
            · exact good_not_mem (natToChars_good _) (by decide) hm
        · rcases List.mem_cons.mp hm with hm | hm
          · exact absurd hm (by decide)
          · exact good_not_mem hmainTok (by decide) hm
      · rcases List.mem_cons.mp hm with hm | hm
        · exact absurd hm (by decide)
        · exact good_not_mem hcard (by decide) hm
    have hsplit1 : pySplit ':' a.encode =
        [((natToChars a.card_play ++ '.' :: natToChars a.player_id) ++
            '.' :: a.main_action) ++ '.' :: a.used_card,
          pyJoin ';' (a.arguments.map ActionArg.argumentString)] := by
      show pySplit ':' ((((natToChars a.card_play ++ '.' :: natToChars a.player_id) ++
        '.' :: a.main_action) ++ '.' :: a.used_card) ++
        ':' :: pyJoin ';' (a.arguments.map ActionArg.argumentString)) = _
      rw [pySplit_append _ hcl, pySplit_not_mem hcolonR]
    have hleftJoin : ((natToChars a.card_play ++ '.' :: natToChars a.player_id) ++
        '.' :: a.main_action) ++ '.' :: a.used_card =
        pyJoin '.' [natToChars a.card_play, natToChars a.player_id, a.main_action,
          a.used_card] := by
      simp [pyJoin, List.append_assoc]
    have hsplit2 : pySplit '.' (((natToChars a.card_play ++ '.' :: natToChars a.player_id) ++
        '.' :: a.main_action) ++ '.' :: a.used_card) =
        [natToChars a.card_play, natToChars a.player_id, a.main_action, a.used_card] := by
      rw [hleftJoin]
      refine pySplit_pyJoin (by simp) ?_
      intro p hp
      simp only [List.mem_cons, List.not_mem_nil, or_false] at hp
      rcases hp with rfl | rfl | rfl | rfl
      · exact good_not_mem (natToChars_good _) (by decide)
      · exact good_not_mem (natToChars_good _) (by decide)
      · exact good_not_mem hmainTok (by decide)
      · exact good_not_mem hcard (by decide)
    unfold parseActionString
    rw [hsplit1]
    dsimp only
    rw [hsplit2]
    dsimp only
    rw [parseDec_natToChars, parseDec_natToChars]
    dsimp only
    have hargsEq : parseArgs a.main_action
        (pySplit ';' (pyJoin ';' (a.arguments.map ActionArg.argumentString))) =
        some a.arguments := by
      rcases hl : a.arguments with - | ⟨a0, rest⟩
      · rfl
      · rw [← hl]
        rw [pySplit_pyJoin (by rw [hl]; simp) hsemiFree]
        exact parseArgs_map hargs
    rw [hargsEq]
  constructor
  · exact hmain
  · intro s hs
    obtain ⟨a, ha, henc⟩ := hs
    exact ⟨a, henc ▸ hmain a ha, henc⟩

/-- Claim C9 witness: the round trip at a concrete build command and the
exact-string re-encoding of its encoded text. -/
theorem c9_witness :
    parseActionString (Action.encode buildCoalAct) = some buildCoalAct ∧
    ∃ a : Action, parseActionString (Action.encode buildCoalAct) = some a ∧
      a.encode = Action.encode buildCoalAct := by
  constructor
  · exact c9_encode_decode_roundtrip.1 buildCoalAct (by decide)
  · exact c9_encode_decode_roundtrip.2 (Action.encode buildCoalAct)
      ⟨buildCoalAct, by decide, rfl⟩

/-!  ### C10: reachable states always offer a valid loan child. -/

/-- Coherence of a game state with the heap: at least one player, the
active index in range, and each stored address valid with the referenced
player's id equal to its index. -/
def Coherent (g : GameState) (h : Heap) : Prop :=
  g.playerRefs ≠ [] ∧ g.active_player_index < g.playerRefs.length ∧
  ∀ i < g.playerRefs.length, g.playerRefs.getD i 0 < h.length ∧
    (getPlayer h (g.playerRefs.getD i 0)).player_id = i

/-- Build-tile mutator: the player id is preserved. -/
theorem build_tile_pid (props : GameProperties) (p : Player) (nm : Str) :
    (p.build_tile props nm).1.player_id = p.player_id := by
  unfold Player.build_tile
  rcases props.industry_dict nm with - | t
  · rfl
  · dsimp only
    split
    · rfl
    · have hdm := delta_money_fields (p.bumpNext t.industry) (-1 * t.money_cost)
      rcases hd : (p.bumpNext t.industry).delta_money (-1 * t.money_cost) with ⟨pl, r⟩
      rw [hd] at hdm
      dsimp only at hdm
      cases r <;> exact hdm.2.2.2.1

/-- Develop-tile mutator: the player id is preserved. -/
theorem develop_tile_pid (props : GameProperties) (p : Player) (nm : Str) :
    (p.develop_tile props nm).1.player_id = p.player_id := by
  unfold Player.develop_tile
  rcases props.industry_dict nm with - | t
  · rfl
  · dsimp only
    split
    · rfl
    · split <;> rfl

/-- Loan mutator: the player id is preserved. -/
theorem loan_pid (p : Player) : (p.loan).1.player_id = p.player_id := by
  unfold Player.loan
  have hdm := delta_money_fields p 30
  rcases hd : p.delta_money 30 with ⟨pl, r⟩
  rw [hd] at hdm
  dsimp only at hdm
  cases r with
  | some e => exact hdm.2.2.2.1
  | none =>
    have hai := award_income_fields pl (-3)
    rcases ha : pl.award_income_levels (-3) with ⟨pl2, r2⟩
    rw [ha] at hai
    dsimp only at hai
    dsimp only
    rw [ha]
    show pl2.player_id = p.player_id
    rw [hai.2.2.1, hdm.2.2.2.1]

/-- Heap preservation (length and ids) for any heap pair. -/
def IdsPres (h h' : Heap) : Prop :=
  h'.length = h.length ∧
  ∀ q, (getPlayer h' q).player_id = (getPlayer h q).player_id

/-- IdsPres is reflexive. -/
theorem idsPres_refl (h : Heap) : IdsPres h h := ⟨rfl, fun _ => rfl⟩

/-- IdsPres is transitive. -/
theorem idsPres_trans {h1 h2 h3 : Heap} (a : IdsPres h1 h2) (b : IdsPres h2 h3) :
    IdsPres h1 h3 :=
  ⟨b.1.trans a.1, fun q => (b.2 q).trans (a.2 q)⟩

/-- Writing back a player with unchanged id preserves ids. -/
theorem idsPres_set {h : Heap} {r : Nat} {p : Player}
    (hp : p.player_id = (getPlayer h r).player_id) : IdsPres h (setPlayer h r p) :=
  ⟨setPlayer_length .., fun q => getPlayer_set_field Player.player_id hp q⟩

/-- The auto-sell loop preserves heap length and player ids. -/
theorem autoSellLoop_idsPres (cost : List Int) (ref : Nat) :
    ∀ (fuel : Nat) (ind : PlayedIndustry) (h : Heap) (fill : Nat),
      IdsPres h (autoSellLoop cost ref fuel ind h fill).2.1 := by
  intro fuel
  induction fuel with
  | zero => intro ind h fill; exact idsPres_refl h
  | succ n ih =>
    intro ind h fill
    unfold autoSellLoop
    split
    · have hsr := spend_resource_frame ind h
      rcases hsp : ind.spend_resource h with ⟨ind1, h1, r1⟩
      rw [hsp] at hsr
      dsimp only at hsr
      have hp1 : IdsPres h h1 := ⟨hsr.1, hsr.2⟩
      cases r1 with
      | some e => exact hp1
      | none =>
        dsimp only
        have hdm := delta_money_fields (getPlayer h1 ref) (cost.getD (fill - 1) 0)
        rcases hd : (getPlayer h1 ref).delta_money (cost.getD (fill - 1) 0) with ⟨pl, r⟩
        rw [hd] at hdm
        dsimp only at hdm
        have hp2 : IdsPres h1 (setPlayer h1 ref pl) := idsPres_set hdm.2.2.2.1
        cases r with
        | some e => exact idsPres_trans hp1 hp2
        | none => exact idsPres_trans hp1 (idsPres_trans hp2 (ih _ _ _))
    · exact idsPres_refl h

/-- The sell scan preserves heap length and player ids. -/
theorem sellFirst_idsPres {nm : Str} : ∀ {inds : List PlayedIndustry} {h : Heap}
    {res : List PlayedIndustry × Heap × IndustryProperties},
    sellFirst inds h nm = some res → IdsPres h res.2.1 := by
  intro inds
  induction inds with
  | nil => intro h res he; simp [sellFirst] at he
  | cons ind rest ih =>
    intro h res he
    unfold sellFirst at he
    split at he
    · have hsf := sell_frame ind h
      rcases hsp : ind.sell h with ⟨i2, h2, r2⟩
      rw [hsp] at he hsf
      dsimp only at hsf
      simp only [Option.some.injEq] at he
      subst he
      exact ⟨hsf.1, hsf.2⟩
    · rcases hb : sellFirst rest h nm with - | ⟨rest', h2, t2⟩ <;> rw [hb] at he
      · simp at he
      · simp only [Option.some.injEq] at he
        subst he
        have hrec := ih hb
        exact hrec

/-- The ledger preserves heap length and player ids (restatement of the
frame lemma). -/
theorem spend_resources_idsPres (g : GameState) (h : Heap) (loc : Str)
    (locs req : List Str) (ref : Nat) :
    IdsPres h (spend_resources g h loc locs req ref).2.1 := by
  have hf := spend_resources_frame g h loc locs req ref
  exact ⟨hf.2.2.2.2.2.2.2.1, hf.2.2.2.2.2.2.2.2⟩

/-- The develop loop preserves heap length and player ids, and the acted-on
state entirely. -/
theorem developLoop_pres (props : GameProperties) (ref : Nat) :
    ∀ (args : List ActionArg) (gext g : GameState) (h : Heap),
      (developLoop props gext g h ref args).2.1 = g ∧
      IdsPres h (developLoop props gext g h ref args).2.2.1 := by
  intro args
  induction args with
  | nil => intro gext g h; exact ⟨rfl, idsPres_refl h⟩
  | cons arg rest ih =>
    intro gext g h
    unfold developLoop
    have hdp := develop_tile_pid props (getPlayer h ref) arg.getTile
    rcases hdt : (getPlayer h ref).develop_tile props arg.getTile with ⟨pl, r⟩
    rw [hdt] at hdp
    dsimp only at hdp
    have hp1 : IdsPres h (setPlayer h ref pl) := idsPres_set hdp
    cases r with
    | some e => exact ⟨rfl, hp1⟩
    | none =>
      dsimp only
      have hsr := spend_resources_idsPres gext (setPlayer h ref pl) sUnknown
        arg.getResources [sIron] ref
      rcases hsp : spend_resources gext (setPlayer h ref pl) sUnknown arg.getResources
        [sIron] ref with ⟨gext2, h2, spent2, r2⟩
      rw [hsp] at hsr
      dsimp only at hsr
      cases r2 with
      | some e => exact ⟨rfl, idsPres_trans hp1 hsr⟩
      | none =>
        have hrec := ih gext2 g h2
        exact ⟨hrec.1, idsPres_trans hp1 (idsPres_trans hsr hrec.2)⟩

/-- The build branch preserves the player list, active index and ids. -/
theorem buildBranch_pres (g : GameState) (h : Heap) (ref : Nat) (t : IndustryProperties)
    (arg : ActionArg) :
    (buildBranch g h ref t arg).1.playerRefs = g.playerRefs ∧
    (buildBranch g h ref t arg).1.active_player_index = g.active_player_index ∧
    IdsPres h (buildBranch g h ref t arg).2.1 := by
  unfold buildBranch
  split
  · exact ⟨rfl, rfl, idsPres_refl h⟩
  · have hsf := spend_resources_frame g h arg.getLocation arg.getResources t.cost_list ref
    have hsi := spend_resources_idsPres g h arg.getLocation arg.getResources t.cost_list ref
    rcases hsp : spend_resources g h arg.getLocation arg.getResources t.cost_list ref
      with ⟨g2, h2, spent2, r2⟩
    rw [hsp] at hsf hsi
    dsimp only at hsf hsi
    cases r2 with
    | some e => exact ⟨hsf.1, hsf.2.2.2.2.2.1, hsi⟩
    | none =>
      dsimp only
      split
      · have hal := autoSellLoop_idsPres coal_market_cost ref
          (mkPlayedIndustry ref t g2.age).resource_remaining (mkPlayedIndustry ref t g2.age)
          h2 g2.coal_market_last_filled
        rcases hl : autoSellLoop coal_market_cost ref
            (mkPlayedIndustry ref t g2.age).resource_remaining (mkPlayedIndustry ref t g2.age)
            h2 g2.coal_market_last_filled with ⟨ind3, h3, fill3, r3⟩
        rw [hl] at hal
        dsimp only at hal
        exact ⟨hsf.1, hsf.2.2.2.2.2.1, idsPres_trans hsi hal⟩
      · split
        · have hal := autoSellLoop_idsPres iron_market_cost ref
            (mkPlayedIndustry ref t g2.age).resource_remaining (mkPlayedIndustry ref t g2.age)
            h2 g2.iron_market_last_filled
          rcases hl : autoSellLoop iron_market_cost ref
              (mkPlayedIndustry ref t g2.age).resource_remaining (mkPlayedIndustry ref t g2.age)
              h2 g2.iron_market_last_filled with ⟨ind3, h3, fill3, r3⟩
          rw [hl] at hal
          dsimp only at hal
          exact ⟨hsf.1, hsf.2.2.2.2.2.1, idsPres_trans hsi hal⟩
        · exact ⟨hsf.1, hsf.2.2.2.2.2.1, hsi⟩

/-- The rail-era cost dispatch preserves the player list, active index and
ids. -/
theorem networkRailStep_pres (g : GameState) (h2 : Heap) (ref : Nat) (args : List ActionArg) :
    (networkRailStep g h2 ref args).1.playerRefs = g.playerRefs ∧
    (networkRailStep g h2 ref args).1.active_player_index = g.active_player_index ∧
    IdsPres h2 (networkRailStep g h2 ref args).2.1 := by
  unfold networkRailStep
  by_cases ha1 : args.length = 1
  · rw [if_pos ha1]
    have hdm := delta_money_fields (getPlayer h2 ref) (-5)
    rcases hd : (getPlayer h2 ref).delta_money (-5) with ⟨pl, r⟩
    rw [hd] at hdm
    dsimp only at hdm
    cases r with
    | some e => exact ⟨rfl, rfl, idsPres_set hdm.2.2.2.1⟩
    | none =>
      dsimp only
      have hsi := spend_resources_idsPres g (setPlayer h2 ref pl) sUnknown [sCoal]
        [sCoal] ref
      have hsf := spend_resources_frame g (setPlayer h2 ref pl) sUnknown [sCoal]
        [sCoal] ref
      rcases hsp : spend_resources g (setPlayer h2 ref pl) sUnknown [sCoal] [sCoal] ref
        with ⟨g3, h3, spent3, r3⟩
      rw [hsp] at hsi hsf
      dsimp only at hsi hsf
      have hids := idsPres_trans (idsPres_set hdm.2.2.2.1) hsi
      cases r3 with
      | some e => exact ⟨hsf.1, hsf.2.2.2.2.2.1, hids⟩
      | none => exact ⟨hsf.1, hsf.2.2.2.2.2.1, hids⟩
  · rw [if_neg ha1]
    by_cases ha2 : args.length = 2
    · rw [if_pos ha2]
      have hdm := delta_money_fields (getPlayer h2 ref) (-15)
      rcases hd : (getPlayer h2 ref).delta_money (-15) with ⟨pl, r⟩
      rw [hd] at hdm
      dsimp only at hdm
      cases r with
      | some e => exact ⟨rfl, rfl, idsPres_set hdm.2.2.2.1⟩
      | none =>
        dsimp only
        have hsi := spend_resources_idsPres g (setPlayer h2 ref pl) sUnknown [sCoal]
          [sCoal] ref
        have hsf := spend_resources_frame g (setPlayer h2 ref pl) sUnknown [sCoal]
          [sCoal] ref
        rcases hsp : spend_resources g (setPlayer h2 ref pl) sUnknown [sCoal] [sCoal] ref
          with ⟨g3, h3, spent3, r3⟩
        rw [hsp] at hsi hsf
        dsimp only at hsi hsf
        have hids := idsPres_trans (idsPres_set hdm.2.2.2.1) hsi
        cases r3 with
        | some e => exact ⟨hsf.1, hsf.2.2.2.2.2.1, hids⟩
        | none =>
          dsimp only
          have hsi2 := spend_resources_idsPres g3 h3 sUnknown [sCoal, sBeer]
            [sCoal, sBeer] ref
          have hsf2 := spend_resources_frame g3 h3 sUnknown [sCoal, sBeer]
            [sCoal, sBeer] ref
          rcases hsp2 : spend_resources g3 h3 sUnknown [sCoal, sBeer] [sCoal, sBeer] ref
            with ⟨g4, h4, spent4, r4⟩
          rw [hsp2] at hsi2 hsf2
          dsimp only at hsi2 hsf2
          have hids2 := idsPres_trans hids hsi2
          cases r4 with
          | some e =>
            exact ⟨hsf2.1.trans hsf.1, (hsf2.2.2.2.2.2.1).trans hsf.2.2.2.2.2.1, hids2⟩
          | none =>
            exact ⟨hsf2.1.trans hsf.1, (hsf2.2.2.2.2.2.1).trans hsf.2.2.2.2.2.1, hids2⟩
    · rw [if_neg ha2]
      exact ⟨rfl, rfl, idsPres_refl h2⟩

/-- The network branch preserves the player list, active index and ids. -/
theorem networkBranch_pres (g : GameState) (h : Heap) (ref : Nat) (args : List ActionArg) :
    (networkBranch g h ref args).1.playerRefs = g.playerRefs ∧
    (networkBranch g h ref args).1.active_player_index = g.active_player_index ∧
    IdsPres h (networkBranch g h ref args).2.1 := by
  unfold networkBranch
  dsimp only
  by_cases hc : g.age = sCanal
  · rw [if_pos hc]
    have hnr : ¬g.age = sRail := by rw [hc]; decide
    have hdm := delta_money_fields (getPlayer h ref) (-3)
    rcases hd : (getPlayer h ref).delta_money (-3) with ⟨pl, r⟩
    rw [hd] at hdm
    dsimp only at hdm
    cases r with
    | some e => exact ⟨rfl, rfl, idsPres_set hdm.2.2.2.1⟩
    | none =>
      dsimp only
      rw [if_neg hnr]
      exact ⟨rfl, rfl, idsPres_set hdm.2.2.2.1⟩
  · rw [if_neg hc]
    dsimp only
    by_cases hr : g.age = sRail
    · rw [if_pos hr]
      have hrs := networkRailStep_pres g h ref args
      rcases hstep : networkRailStep g h ref args with ⟨gb, hb, logb, rb⟩
      rw [hstep] at hrs
      dsimp only at hrs
      cases rb with
      | some e => exact hrs
      | none => exact hrs
    · rw [if_neg hr]
      exact ⟨rfl, rfl, idsPres_refl h⟩

/-- Turn bookkeeping preserves the player list and keeps the active index
in range. -/
theorem increment_card_play_pres (g : GameState) :
    (increment_card_play g).playerRefs = g.playerRefs ∧
    (g.playerRefs ≠ [] →
      (increment_card_play g).active_player_index < g.playerRefs.length) := by
  have h0 : g.playerRefs ≠ [] → 0 < g.playerRefs.length :=
    fun hne => List.length_pos.mpr hne
  unfold increment_card_play
  dsimp only
  split <;> rename_i h1
  · split <;> rename_i h2
    · split <;> rename_i h3
      · exact ⟨rfl, fun hne => h0 hne⟩
      · refine ⟨rfl, fun hne => ?_⟩
        dsimp only at h3 ⊢
        omega
    · split <;> rename_i h3
      · exact ⟨rfl, fun hne => h0 hne⟩
      · refine ⟨rfl, fun hne => ?_⟩
        dsimp only at h3 ⊢
        omega
  · split <;> rename_i h3
    · exact ⟨rfl, fun hne => h0 hne⟩
    · refine ⟨rfl, fun hne => ?_⟩
      dsimp only at h3 ⊢
      omega

/-- The interpreter preserves the player list, preserves heap length and
player ids, and on success leaves the active index in range. -/
theorem takeActionSelf_pres (props : GameProperties) (gext g : GameState) (h : Heap)
    (a : Action) :
    (takeActionSelf props gext g h a).2.1.playerRefs = g.playerRefs ∧
    IdsPres h (takeActionSelf props gext g h a).2.2.1 ∧
    ((takeActionSelf props gext g h a).2.2.2 = none → g.playerRefs ≠ [] →
      (takeActionSelf props gext g h a).2.1.active_player_index < g.playerRefs.length) := by
  have hInc : ∀ (gb : GameState) (hb : Heap),
      gb.playerRefs = g.playerRefs → IdsPres h hb →
      ((increment_card_play gb).playerRefs = g.playerRefs ∧
        IdsPres h hb ∧
        (True → g.playerRefs ≠ [] →
          (increment_card_play gb).active_player_index < g.playerRefs.length)) := by
    intro gb hb hrefs hids
    have hicp := increment_card_play_pres gb
    refine ⟨hicp.1.trans hrefs, hids, fun _ hne => ?_⟩
    rw [← hrefs] at hne ⊢
    exact hicp.2 hne
  have hBranch : ∀ (res : GameState × GameState × Heap × Option String),
      res.2.1.playerRefs = g.playerRefs → IdsPres h res.2.2.1 →
      ((match res with
        | (gext, g, h, some e) => (gext, g, h, some e)
        | (gext, g, h, none) => (gext, increment_card_play g, h, none)).2.1.playerRefs
          = g.playerRefs ∧
      IdsPres h (match res with
        | (gext, g, h, some e) => (gext, g, h, some e)
        | (gext, g, h, none) => (gext, increment_card_play g, h, none)).2.2.1 ∧
      ((match res with
        | (gext, g, h, some e) => (gext, g, h, some e)
        | (gext, g, h, none) => (gext, increment_card_play g, h, none)).2.2.2 = none →
        g.playerRefs ≠ [] →
        (match res with
          | (gext, g, h, some e) => (gext, g, h, some e)
          | (gext, g, h, none) =>
            (gext, increment_card_play g, h, none)).2.1.active_player_index
          < g.playerRefs.length)) := by
    intro res hrefs hids
    rcases res with ⟨ge, gb, hb, rb⟩
    cases rb with
    | some e =>
      dsimp only at hrefs hids ⊢
      exact ⟨hrefs, hids, fun hx => absurd hx (by simp)⟩
    | none =>
      dsimp only at hrefs hids ⊢
      have := hInc gb hb hrefs hids
      exact ⟨this.1, this.2.1, fun _ => this.2.2 trivial⟩
  unfold takeActionSelf
  dsimp only
  split <;> rename_i hpid
  · exact ⟨rfl, idsPres_refl h, fun hx => absurd hx (by simp)⟩
  · set ref := g.playerRefs.getD g.active_player_index 0 with href
    by_cases hb1 : a.main_action = sBuild
    · rw [if_pos hb1]
      rcases harg : a.arguments with - | ⟨arg, rest⟩
      · exact ⟨rfl, idsPres_refl h, fun hx => absurd hx (by simp)⟩
      · dsimp only
        have hbt := build_tile_pid props (getPlayer h ref) arg.getTile
        rcases hd : (getPlayer h ref).build_tile props arg.getTile with ⟨pl, res⟩
        rw [hd] at hbt
        dsimp only at hbt
        have hids1 : IdsPres h (setPlayer h ref pl) := idsPres_set hbt
        cases res with
        | inl e => exact ⟨rfl, hids1, fun hx => absurd hx (by simp)⟩
        | inr t =>
          dsimp only
          have hbb := buildBranch_pres g (setPlayer h ref pl) ref t arg
          rcases hbr : buildBranch g (setPlayer h ref pl) ref t arg with ⟨g2, h2, r2⟩
          rw [hbr] at hbb
          dsimp only at hbb
          exact hBranch (gext, g2, h2, r2) hbb.1 (idsPres_trans hids1 hbb.2.2)
    · rw [if_neg hb1]
      by_cases hb2 : a.main_action = sNetwork
      · rw [if_pos hb2]
        have hnb := networkBranch_pres g h ref a.arguments
        rcases hbr : networkBranch g h ref a.arguments with ⟨g2, h2, log2, r2⟩
        rw [hbr] at hnb
        dsimp only at hnb
        exact hBranch (gext, g2, h2, r2) hnb.1 hnb.2.2
      · rw [if_neg hb2]
        by_cases hb3 : a.main_action = sDevelop
        · rw [if_pos hb3]
          have hdl := developLoop_pres props ref a.arguments gext g h
          rcases hbr : developLoop props gext g h ref a.arguments with ⟨ge2, g2, h2, r2⟩
          rw [hbr] at hdl
          dsimp only at hdl
          have hg2 : g2.playerRefs = g.playerRefs := by rw [hdl.1]
          exact hBranch (ge2, g2, h2, r2) hg2 hdl.2
        · rw [if_neg hb3]
          by_cases hb4 : a.main_action = sSell
          · rw [if_pos hb4]
            rcases harg : a.arguments with - | ⟨arg, rest⟩
            · exact ⟨rfl, idsPres_refl h, fun hx => absurd hx (by simp)⟩
            · dsimp only
              rcases hsf : sellFirst g.played_industries h arg.getTile
                with - | ⟨inds2, h2, t2⟩
              · exact ⟨rfl, idsPres_refl h, fun hx => absurd hx (by simp)⟩
              · have hsi := sellFirst_idsPres hsf
                dsimp only at hsi ⊢
                have hsr := spend_resources_idsPres
                  { g with played_industries := inds2 } h2 sUnknown
                  (List.replicate t2.beer_cost sBeer) (List.replicate t2.beer_cost sBeer) ref
                have hsrf := spend_resources_frame
                  { g with played_industries := inds2 } h2 sUnknown
                  (List.replicate t2.beer_cost sBeer) (List.replicate t2.beer_cost sBeer) ref
                rcases hsp : spend_resources { g with played_industries := inds2 } h2
                    sUnknown (List.replicate t2.beer_cost sBeer)
                    (List.replicate t2.beer_cost sBeer) ref with ⟨g3, h3, spent3, r3⟩
                rw [hsp] at hsr hsrf
                dsimp only at hsr hsrf
                exact hBranch (gext, g3, h3, r3) hsrf.1 (idsPres_trans hsi hsr)
          · rw [if_neg hb4]
            by_cases hb5 : a.main_action = sLoan
            · rw [if_pos hb5]
              have hlp := loan_pid (getPlayer h ref)
              rcases hd : (getPlayer h ref).loan with ⟨pl, r⟩
              rw [hd] at hlp
              dsimp only at hlp ⊢
              exact hBranch (gext, g, setPlayer h ref pl, none) rfl (idsPres_set hlp)
            · rw [if_neg hb5]
              by_cases hb6 : a.main_action = sScout
              · rw [if_pos hb6]
                exact ⟨rfl, idsPres_refl h, fun hx => absurd hx (by simp)⟩
              · rw [if_neg hb6]
                by_cases hb7 : a.main_action = sPass
                · rw [if_pos hb7]
                  exact ⟨rfl, idsPres_refl h, fun hx => absurd hx (by simp)⟩
                · rw [if_neg hb7]
                  exact ⟨rfl, idsPres_refl h, fun hx => absurd hx (by simp)⟩

/-- Coherence survives heap growth that preserves old ids. -/
theorem coherent_of_extends {g : GameState} {h h' : Heap} (hc : Coherent g h)
    (hlen : h.length ≤ h'.length)
    (hids : ∀ q, q < h.length →
      (getPlayer h' q).player_id = (getPlayer h q).player_id) :
    Coherent g h' :=
  ⟨hc.1, hc.2.1, fun i hi =>
    ⟨Nat.lt_of_lt_of_le (hc.2.2 i hi).1 hlen,
      (hids _ (hc.2.2 i hi).1).trans (hc.2.2 i hi).2⟩⟩

/-- Copying a coherent state yields a coherent state: the fresh addresses
point at value copies of the parent players, whose ids equal their
indices. -/
theorem copyState_coherent {g : GameState} {h : Heap} (hc : Coherent g h) :
    Coherent (copyState g h).1 (copyState g h).2 := by
  obtain ⟨hne, hact, hrefs⟩ := hc
  unfold copyState
  dsimp only
  refine ⟨?_, ?_, ?_⟩
  · simp [hne]
  · simpa using hact
  · intro i hi
    simp only [List.length_map, List.length_range] at hi
    have hgetR : ((List.range g.playerRefs.length).map
        (fun j => h.length + j)).getD i 0 = h.length + i := by
      rw [List.getD_eq_getElem?_getD, List.getElem?_map, List.getElem?_range hi]
      rfl
    rw [hgetR]
    constructor
    · simp only [List.length_append, List.length_map]
      omega
    · have hval : getPlayer (h ++ g.playerRefs.map (getPlayer h)) (h.length + i) =
          getPlayer h (g.playerRefs.getD i 0) := by
        have hri : g.playerRefs.getD i 0 = g.playerRefs[i] := by
          rw [List.getD_eq_getElem?_getD, List.getElem?_eq_getElem hi]
          rfl
        rw [hri]
        unfold getPlayer
        rw [List.getD_eq_getElem?_getD, List.getElem?_append_right (by omega)]
        have hsub : h.length + i - h.length = i := by omega
        rw [hsub, List.getElem?_map, List.getElem?_eq_getElem hi]
        rfl
      rw [hval]
      exact (hrefs i hi).2

/-- A dry run extends the heap: old addresses keep their ids. -/
theorem takeActionCopy_extends (props : GameProperties) (gext g : GameState) (h : Heap)
    (a : Action) :
    h.length ≤ (takeActionCopy props gext g h a).2.2.1.length ∧
    ∀ q, q < h.length →
      (getPlayer (takeActionCopy props gext g h a).2.2.1 q).player_id =
        (getPlayer h q).player_id := by
  unfold takeActionCopy
  rcases hcp : copyState g h with ⟨gc, hcH⟩
  have hH : hcH = h ++ g.playerRefs.map (getPlayer h) := by
    have : (copyState g h).2 = hcH := by rw [hcp]
    rw [← this]
    rfl
  have happ : h.length ≤ hcH.length ∧ ∀ q, q < h.length →
      (getPlayer hcH q).player_id = (getPlayer h q).player_id := by
    subst hH
    constructor
    · simp
    · intro q hq
      unfold getPlayer
      rw [List.getD_eq_getElem?_getD, List.getElem?_append_left hq,
        ← List.getD_eq_getElem?_getD]
  have hpres := (takeActionSelf_pres props gext gc hcH a).2.1
  constructor
  · calc h.length ≤ hcH.length := happ.1
      _ = (takeActionSelf props gext gc hcH a).2.2.1.length := hpres.1.symm
  · intro q hq
    rw [hpres.2 q, happ.2 q hq]

/-- A successful dry run's child is coherent with the resulting heap. -/
theorem takeActionCopy_coherent (props : GameProperties) {gext gext' g g' : GameState}
    {h h' : Heap} {a : Action} (hc : Coherent g h)
    (hta : takeActionCopy props gext g h a = (gext', g', h', none)) :
    Coherent g' h' := by
  unfold takeActionCopy at hta
  rcases hcp : copyState g h with ⟨gc, hcH⟩
  rw [hcp] at hta
  dsimp only at hta
  have hcc : Coherent gc hcH := by
    have := copyState_coherent hc
    rw [hcp] at this
    exact this
  have hpres := takeActionSelf_pres props gext gc hcH a
  rw [hta] at hpres
  dsimp only at hpres
  obtain ⟨hrefs, hids, hact⟩ := hpres
  refine ⟨?_, ?_, ?_⟩
  · rw [hrefs]
    exact hcc.1
  · rw [hrefs]
    exact hact rfl hcc.1
  · intro i hi
    rw [hrefs] at hi ⊢
    have hbase := hcc.2.2 i hi
    constructor
    · calc gc.playerRefs.getD i 0 < hcH.length := hbase.1
        _ = h'.length := hids.1.symm
    · rw [hids.2 _]
      exact hbase.2

/-- Every reachable state is coherent. -/
theorem reachable_coherent (props : GameProperties) {g : GameState} {h : Heap}
    (hr : Reachable props g h) : Coherent g h := by
  induction hr with
  | init =>
    refine ⟨by decide, by decide, ?_⟩
    intro i hi
    simp only [initGame, List.length_cons, List.length_nil] at hi
    interval_cases i
    constructor
    · decide
    · decide
  | step gext gext' a hr' hta ih => exact takeActionCopy_coherent props ih hta

/-- A loan-kind candidate naming the active index is always reported
successful by a dry run on a coherent state: the identity check passes by
coherence, the loan mutator's failure value is discarded at its call site,
and the card-play bookkeeping cannot fail. -/
theorem loanCandidate_succeeds (props : GameProperties) (gext : GameState) {g : GameState}
    {h : Heap} (hc : Coherent g h) (a : Action) (hmain : a.main_action = sLoan)
    (hpid : a.player_id = g.active_player_index) :
    (takeActionCopy props gext g h a).2.2.2 = none := by
  unfold takeActionCopy
  rcases hcp : copyState g h with ⟨gc, hcH⟩
  have hcc : Coherent gc hcH := by
    have := copyState_coherent hc
    rw [hcp] at this
    exact this
  have hgact : gc.active_player_index = g.active_player_index := by
    have : (copyState g h).1.active_player_index = g.active_player_index := rfl
    rw [hcp] at this
    exact this
  have hglen : gc.playerRefs.length = g.playerRefs.length := by
    have : (copyState g h).1.playerRefs.length = g.playerRefs.length := by
      unfold copyState
      simp
    rw [hcp] at this
    exact this
  have hid : (getPlayer hcH (gc.playerRefs.getD gc.active_player_index 0)).player_id =
      gc.active_player_index :=
    (hcc.2.2 gc.active_player_index hcc.2.1).2
  unfold takeActionSelf
  dsimp only
  rw [if_neg (by rw [hid, hgact, hpid]; exact fun hx => hx rfl)]
  rw [if_neg (by rw [hmain]; decide), if_neg (by rw [hmain]; decide),
    if_neg (by rw [hmain]; decide), if_neg (by rw [hmain]; decide), if_pos hmain]

/-- The dry-run loop returns a nonempty list whenever the candidates still
to test contain a loan for the active index (or a success was already
collected). -/
theorem validChildrenLoop_ne_nil (props : GameProperties) (g : GameState) :
    ∀ (acts : List Action) (gext : GameState) (h : Heap) (acc : List GameState),
      Coherent g h →
      ((∃ a, a ∈ acts ∧ a.main_action = sLoan ∧ a.player_id = g.active_player_index) ∨
        acc ≠ []) →
      (validChildrenLoop props g acts gext h acc).1 ≠ [] := by
  intro acts
  induction acts with
  | nil =>
    intro gext h acc hc hex
    rcases hex with ⟨a, ha, -⟩ | hacc
    · exact absurd ha (List.not_mem_nil a)
    · simpa [validChildrenLoop] using hacc
  | cons a rest ih =>
    intro gext h acc hc hex
    unfold validChildrenLoop
    have hext := takeActionCopy_extends props gext g h a
    rcases hta : takeActionCopy props gext g h a with ⟨gext2, child, h2, r2⟩
    rw [hta] at hext
    dsimp only at hext
    have hc2 : Coherent g h2 := coherent_of_extends hc hext.1 hext.2
    cases r2 with
    | none =>
      dsimp only
      exact ih gext2 h2 (acc ++ [child]) hc2 (Or.inr (by simp))
    | some e =>
      dsimp only
      refine ih gext2 h2 acc hc2 ?_
      rcases hex with ⟨a', ha', hmain', hpid'⟩ | hacc
      · rcases List.mem_cons.mp ha' with rfl | ha'
        · exfalso
          have hsucc := loanCandidate_succeeds props gext hc a' hmain' hpid'
          rw [hta] at hsucc
          simp at hsucc
        · exact Or.inl ⟨a', ha', hmain', hpid'⟩
      · exact Or.inr hacc

/-- The loan candidate is among the untested actions. -/
theorem loanCandidate_mem (props : GameProperties) (g : GameState) (h : Heap) :
    loanCandidate g ∈ get_untested_actions props g h := by
  unfold get_untested_actions
  exact List.mem_append.mpr (Or.inl (List.mem_append.mpr
    (Or.inr (List.mem_singleton.mpr rfl))))

/-- Claim C10 (confirmed): from every reachable game state, the loan
candidate produced by `get_untested_actions` is reported successful by its
test-mode dry run — with no condition on the player's income level, since
the income failure is discarded at the loan call site — and therefore
`get_valid_children` returns a nonempty list, so the "No valid children
found" branch of `decide_and_perform_action`, which raises exactly when
that list is empty, cannot be reached. -/
theorem c10_loan_child_always_valid (props : GameProperties) (gext : GameState)
    {g : GameState} {h : Heap} (hr : Reachable props g h) :
    (takeActionCopy props gext g h (loanCandidate g)).2.2.2 = none ∧
    (get_valid_children props gext g h).1 ≠ [] := by
  have hc := reachable_coherent props hr
  constructor
  · exact loanCandidate_succeeds props gext hc (loanCandidate g) rfl rfl
  · unfold get_valid_children
    exact validChildrenLoop_ne_nil props g (get_untested_actions props g h) gext h [] hc
      (Or.inl ⟨loanCandidate g, loanCandidate_mem props g h, rfl, rfl⟩)

/-- Claim C10 witness: the theorem at the fresh game — the loan dry run is
reported successful and the valid-children list is nonempty. -/
theorem c10_witness :
    (takeActionCopy props0 initGame initGame initHeap (loanCandidate initGame)).2.2.2 =
      none ∧
    (get_valid_children props0 initGame initGame initHeap).1 ≠ [] :=
  c10_loan_child_always_valid props0 initGame Reachable.init

end Brass
